import Mathlib

/-!
Verification of the AgentGov scanner's detection-and-risk pipeline.

This file gives a shallow embedding in Lean of the scanner core
(`packages/scanner/src`): the pattern matcher (`file-analyzer.ts`),
the confidence aggregator, the local scan pipeline (`scanners/local.ts`),
the auxiliary-evidence enrichers, the risk evaluator (`enrichers/risk.ts`)
and the orchestrator (`orchestrator.ts`), and proves properties of the
embedded definitions.

Modelling conventions:
* JavaScript numbers are modelled as exact rationals (`ℚ`); the pipeline
  only ever adds, halves, rounds and clamps small decimal weights.
* Regular-expression execution is abstracted: a `PatternDefinition` carries
  an `exec : String → Option String` field standing for `RegExp.exec` on a
  single line (returning `match[0]`), and an `EnvPattern` carries a
  `test : String → Bool` field standing for `RegExp.test` on a whole file.
  Where a claim needs a concrete environment-variable pattern, the regex is
  implemented character by character for the ASCII inputs involved.
* File-system access is abstracted: a scan's input is the list of files
  produced by the discovery glob, each carrying its path together with its
  basename and lowercased extension (computed by Node's `path` functions at
  discovery time), its content and its on-disk size.
* IO-dependent pieces (UUIDs, git history, `Date.now`, `JSON.parse`, the
  name-extraction regex, the per-record risk-rule regexes) are parameters
  of the scan environment; every theorem quantifies over them.
-/

namespace AgentGov

/-- The `DetectionEvidence["type"]` union from `types/index.ts`. -/
inductive EvidenceType
  | importEv
  | instantiationEv
  | config_file
  | dependency
  | env_var
  | code_pattern
deriving DecidableEq, Repr

/-- `DetectionEvidence` from `types/index.ts`.  `line` is the optional
1-based line number; `confidenceContribution` is the pattern weight. -/
structure DetectionEvidence where
  type : EvidenceType
  pattern : String
  matchedText : String
  filePath : String
  line : Option Nat
  confidenceContribution : ℚ
deriving DecidableEq, Repr

/-- `PatternDefinition` from `types/index.ts`.  The regular expression is
abstracted into its `source` text plus an `exec` function on one line of
input, standing for `RegExp.exec` and returning `match[0]` on success. -/
structure PatternDefinition where
  source : String
  exec : String → Option String
  type : EvidenceType
  confidence : ℚ
  description : String

/-- `FrameworkPatterns` from `types/index.ts`.  The optional `configFiles`
and `dependencies` arrays are modelled with `[]` for "absent". -/
structure FrameworkPatterns where
  framework : String
  displayName : String
  languages : List String
  imports : List PatternDefinition
  instantiations : List PatternDefinition
  configFiles : List String
  dependencies : List String

/-- `truncate` from `analyzers/file-analyzer.ts`:
`str.length > maxLen ? str.slice(0, maxLen) + "..." : str`. -/
def truncate (str : String) (maxLen : Nat) : String :=
  if str.length > maxLen then (str.take maxLen) ++ "..." else str

/-- The inner loop of `matchPatterns`: scan lines top to bottom, and on the
first line where `patternDef.pattern.exec(line)` succeeds produce the
evidence item (with 1-based line number `i + 1`) and stop (`break`). -/
def scanLinesFor (patternDef : PatternDefinition) (filePath : String) :
    List String → Nat → Option DetectionEvidence
  | [], _ => none
  | line :: rest, i =>
    match patternDef.exec line with
    | some m =>
      some { type := patternDef.type
             pattern := patternDef.source
             matchedText := truncate m 200
             filePath := filePath
             line := some (i + 1)
             confidenceContribution := patternDef.confidence }
    | none => scanLinesFor patternDef filePath rest (i + 1)

/-- The body of the outer loop of `matchPatterns`: push the evidence item
when the inner line scan found one. -/
def pushIfMatch {α β : Type} (f : α → Option β) (acc : List β) (x : α) : List β :=
  match f x with
  | some e => acc ++ [e]
  | none => acc

/-- `matchPatterns` from `analyzers/file-analyzer.ts`: try every pattern
definition (imports then instantiations); each contributes at most one
evidence item, taken from its first matching line. -/
def matchPatterns (content : String) (filePath : String)
    (frameworkPatterns : FrameworkPatterns) : List DetectionEvidence :=
  let lines := content.splitOn "\n"
  let allPatternDefs := frameworkPatterns.imports ++ frameworkPatterns.instantiations
  allPatternDefs.foldl
    (pushIfMatch (fun patternDef => scanLinesFor patternDef filePath lines 0))
    []

/-- `Math.round` of JavaScript on a rational: nearest integer, ties toward
positive infinity. -/
def jsRound (q : ℚ) : ℤ := ⌊q + 1/2⌋

/-- Insert into a JS `Set`-like list: keep first occurrences, in order. -/
def seenInsert {α : Type} [DecidableEq α] (s : List α) (a : α) : List α :=
  if a ∈ s then s else s ++ [a]

/-- `calculateConfidence` from `analyzers/file-analyzer.ts`: sum the
contributions while collecting the set of evidence types; add `0.1` when at
least two distinct types were seen; round to two decimals
(`Math.round(total * 100) / 100`) and cap at `1.0`. -/
def calculateConfidence (evidence : List DetectionEvidence) : ℚ :=
  if evidence = [] then 0
  else
    let total := evidence.foldl (fun t e => t + e.confidenceContribution) 0
    let typesSeen := evidence.foldl (fun s e => seenInsert s e.type) []
    let total' := if typesSeen.length ≥ 2 then total + 1/10 else total
    min 1 ((jsRound (total' * 100) : ℚ) / 100)

section FoldLemmas

variable {α β : Type} [DecidableEq α]

/-- Summing contributions with `foldl` from an arbitrary accumulator. -/
theorem foldl_add_eq_sum (f : β → ℚ) (l : List β) (a : ℚ) :
    l.foldl (fun t e => t + f e) a = a + (l.map f).sum := by
  induction l generalizing a with
  | nil => simp
  | cons x xs ih => simp [List.foldl_cons, ih, add_assoc]

theorem seenInsert_toFinset (s : List α) (a : α) :
    (seenInsert s a).toFinset = insert a s.toFinset := by
  by_cases h : a ∈ s
  · simp [seenInsert, h, Finset.insert_eq_self.mpr (List.mem_toFinset.mpr h)]
  · simp only [seenInsert, if_neg h, List.toFinset_append, List.toFinset_cons,
      List.toFinset_nil, insert_emptyc_eq]
    exact Finset.union_comm _ _

theorem seenInsert_nodup (s : List α) (a : α) (hs : s.Nodup) :
    (seenInsert s a).Nodup := by
  by_cases h : a ∈ s
  · simpa [seenInsert, h]
  · simpa [seenInsert, h, List.nodup_append] using hs

/-- The `typesSeen` fold collects exactly the distinct elements. -/
theorem seenFold_toFinset (l : List α) (s : List α) :
    (l.foldl seenInsert s).toFinset = s.toFinset ∪ l.toFinset := by
  induction l generalizing s with
  | nil => simp
  | cons x xs ih =>
    simp only [List.foldl_cons, ih, seenInsert_toFinset, List.toFinset_cons]
    ext b
    simp [or_left_comm, or_assoc, or_comm]

theorem seenFold_nodup (l : List α) (s : List α) (hs : s.Nodup) :
    (l.foldl seenInsert s).Nodup := by
  induction l generalizing s with
  | nil => simpa
  | cons x xs ih => exact ih _ (seenInsert_nodup _ _ hs)

theorem seenFold_length (l : List α) :
    (l.foldl seenInsert []).length = l.toFinset.card := by
  rw [← List.toFinset_card_of_nodup (seenFold_nodup l [] List.nodup_nil)]
  rw [seenFold_toFinset]
  simp

end FoldLemmas

/-- **C1.** For every non-empty evidence list belonging to one
(framework, file) pair, the aggregate confidence returned by
`calculateConfidence` equals the sum of the items'
`confidenceContribution` values, plus a flat `0.10` bonus exactly when the
items span at least two distinct evidence categories, rounded to two
decimal places (`Math.round(total * 100) / 100`), and clamped so the
result never exceeds `1.0`. -/
theorem calculateConfidence_eq_sum_bonus_round_clamp
    (evidence : List DetectionEvidence) (h : evidence ≠ []) :
    calculateConfidence evidence =
      min 1 ((jsRound
        (((evidence.map DetectionEvidence.confidenceContribution).sum +
          (if 2 ≤ (evidence.map DetectionEvidence.type).toFinset.card
            then 1/10 else 0)) * 100) : ℚ) / 100) := by
  unfold calculateConfidence
  rw [if_neg h]
  have hsum : evidence.foldl (fun t e => t + e.confidenceContribution) 0 =
      (evidence.map DetectionEvidence.confidenceContribution).sum := by
    rw [foldl_add_eq_sum]; ring
  have htypes : (evidence.foldl (fun s e => seenInsert s e.type) []).length =
      (evidence.map DetectionEvidence.type).toFinset.card := by
    rw [← List.foldl_map DetectionEvidence.type seenInsert]
    exact seenFold_length _
  simp only [hsum, htypes, ge_iff_le]
  by_cases hc : 2 ≤ (evidence.map DetectionEvidence.type).toFinset.card
  · rw [if_pos hc, if_pos hc]
  · rw [if_neg hc, if_neg hc, add_zero]

/-- Concrete import evidence used by witnesses. -/
def sampleImportEvidence : DetectionEvidence :=
  { type := .importEv
    pattern := "from\\s+crewai\\s+import"
    matchedText := "from crewai import Agent"
    filePath := "agent.py"
    line := some 1
    confidenceContribution := 3/10 }

/-- Concrete instantiation evidence used by witnesses. -/
def sampleInstEvidence : DetectionEvidence :=
  { type := .instantiationEv
    pattern := "Crew\\s*\\("
    matchedText := "Crew("
    filePath := "agent.py"
    line := some 5
    confidenceContribution := 3/10 }

/-- Witness for C1 at a concrete two-item evidence list. -/
theorem calculateConfidence_eq_sum_bonus_round_clamp_witness :
    [sampleImportEvidence, sampleInstEvidence] ≠ [] ∧
    calculateConfidence [sampleImportEvidence, sampleInstEvidence] =
      min 1 ((jsRound
        ((([sampleImportEvidence, sampleInstEvidence].map
            DetectionEvidence.confidenceContribution).sum +
          (if 2 ≤ ([sampleImportEvidence, sampleInstEvidence].map
              DetectionEvidence.type).toFinset.card
            then 1/10 else 0)) * 100) : ℚ) / 100) :=
  ⟨by decide, calculateConfidence_eq_sum_bonus_round_clamp _ (by decide)⟩

/-- The evidence item that `matchPatterns` builds when pattern `pd` first
matches on the (0-based) line `lineIdx`, with `RegExp.exec` result `m`. -/
def evidenceAt (pd : PatternDefinition) (filePath : String) (lineIdx : Nat)
    (m : String) : DetectionEvidence :=
  { type := pd.type
    pattern := pd.source
    matchedText := truncate m 200
    filePath := filePath
    line := some (lineIdx + 1)
    confidenceContribution := pd.confidence }

/-- Folding a push-on-match loop produces exactly `filterMap`. -/
theorem foldl_pushMatch_eq_filterMap {α β : Type} (f : α → Option β)
    (l : List α) (acc : List β) :
    l.foldl (pushIfMatch f) acc = acc ++ l.filterMap f := by
  induction l generalizing acc with
  | nil => simp
  | cons x xs ih =>
    simp only [List.foldl_cons, List.filterMap_cons]
    cases hx : f x with
    | none => simp [pushIfMatch, hx, ih]
    | some e => simp [pushIfMatch, hx, ih]

/-- The inner loop of `matchPatterns` returns `some e` exactly when some
line matches, and then `e` comes from the first such line. -/
theorem scanLinesFor_eq_some_iff_aux (pd : PatternDefinition) (fp : String) :
    ∀ (lines : List String) (i : Nat) (e : DetectionEvidence),
      scanLinesFor pd fp lines i = some e ↔
        ∃ j, j < lines.length ∧
          (∀ k, k < j → pd.exec (lines.getD k "") = none) ∧
          ∃ m, pd.exec (lines.getD j "") = some m ∧ e = evidenceAt pd fp (i + j) m := by
  intro lines
  induction lines with
  | nil => intro i e; simp [scanLinesFor]
  | cons line rest ih =>
    intro i e
    cases hx : pd.exec line with
    | some m0 =>
      simp only [scanLinesFor, hx, Option.some.injEq]
      constructor
      · intro he
        refine ⟨0, by simp, by omega, m0, by simpa using hx, ?_⟩
        simp [← he, evidenceAt]
      · rintro ⟨j, hj, hfirst, m, hm, hme⟩
        rcases Nat.eq_zero_or_pos j with rfl | hjpos
        · simp only [List.getD_cons_zero] at hm
          rw [hx] at hm
          cases hm
          simp [hme, evidenceAt]
        · exact absurd (by simpa using hfirst 0 hjpos) (by simp [hx])
    | none =>
      simp only [scanLinesFor, hx]
      rw [ih (i + 1) e]
      constructor
      · rintro ⟨j, hj, hfirst, m, hm, hme⟩
        refine ⟨j + 1, by simpa using hj, ?_, m, by simpa using hm, by
          have : i + 1 + j = i + (j + 1) := by omega
          rwa [this] at hme⟩
        intro k hk
        cases k with
        | zero => simpa using hx
        | succ k => exact hfirst k (by omega)
      · rintro ⟨j, hj, hfirst, m, hm, hme⟩
        cases j with
        | zero =>
          simp only [List.getD_cons_zero] at hm
          rw [hx] at hm
          cases hm
        | succ j =>
          refine ⟨j, by simpa using hj, fun k hk => hfirst (k + 1) (by omega), m,
            by simpa using hm, ?_⟩
          have : i + 1 + j = i + (j + 1) := by omega
          rwa [← this] at hme

/-- **C4.** For every file content and every `FrameworkPatterns`, the
matcher tries every pattern definition (imports then instantiations), each
contributing at most one evidence item — `matchPatterns` is exactly a
`filterMap` over the pattern-definition list, so a match of one pattern
never prevents the remaining patterns from being tried — and the item of a
pattern comes from the first line (top to bottom) that matches it,
carrying that line's 1-based line number. -/
theorem matchPatterns_first_match_per_pattern (content filePath : String)
    (fp : FrameworkPatterns) :
    matchPatterns content filePath fp =
      (fp.imports ++ fp.instantiations).filterMap
        (fun pd => scanLinesFor pd filePath (content.splitOn "\n") 0) ∧
    ∀ pd e, scanLinesFor pd filePath (content.splitOn "\n") 0 = some e ↔
      ∃ j, j < (content.splitOn "\n").length ∧
        (∀ k, k < j → pd.exec ((content.splitOn "\n").getD k "") = none) ∧
        ∃ m, pd.exec ((content.splitOn "\n").getD j "") = some m ∧
          e = evidenceAt pd filePath j m := by
  constructor
  · simpa [matchPatterns] using
      foldl_pushMatch_eq_filterMap
        (fun pd => scanLinesFor pd filePath (content.splitOn "\n") 0)
        (fp.imports ++ fp.instantiations) []
  · intro pd e
    simpa using scanLinesFor_eq_some_iff_aux pd filePath (content.splitOn "\n") 0 e

/-- JavaScript `\s` on the ASCII range (the scanner's env patterns are
ASCII; Unicode space separators are not modelled). -/
def jsWhitespaceChar (c : Char) : Bool :=
  c == ' ' || c == '\t' || c == '\n' || c == '\r' ||
    c == Char.ofNat 11 || c == Char.ofNat 12

/-- `RegExp.test` for a pattern of the shape `KEY\s*=`: some occurrence of
`KEY` is followed by zero or more whitespace characters and then `=`. -/
def testKeyThenEq (key : String) (content : String) : Bool :=
  (List.range (content.data.length + 1)).any (fun i =>
    let rest := content.data.drop i
    key.data.isPrefixOf rest &&
      ((rest.drop key.data.length).dropWhile jsWhitespaceChar).headD '?' == '=')

/-- Executable substring containment on character lists. -/
def listInfixOf (needle hay : List Char) : Bool :=
  (List.range (hay.length + 1)).any (fun i => needle.isPrefixOf (hay.drop i))

/-- `RegExp.test` for a plain-text pattern: substring containment. -/
def testSubstr (needle : String) (content : String) : Bool :=
  listInfixOf needle.data content.data

/-- One entry of `ENV_VAR_PATTERNS` from `patterns/config/index.ts`: the
regex is carried as its `source` text plus a `test` function. -/
structure EnvPattern where
  source : String
  test : String → Bool
  provider : String
  confidence : ℚ

/-- `ENV_VAR_PATTERNS` from `patterns/config/index.ts`. -/
def ENV_VAR_PATTERNS : List EnvPattern :=
  [ ⟨"OPENAI_API_KEY\\s*=", testKeyThenEq "OPENAI_API_KEY", "openai", 1/10⟩,
    ⟨"ANTHROPIC_API_KEY\\s*=", testKeyThenEq "ANTHROPIC_API_KEY", "anthropic", 1/10⟩,
    ⟨"AZURE_OPENAI_API_KEY\\s*=", testKeyThenEq "AZURE_OPENAI_API_KEY", "azure-openai", 1/10⟩,
    ⟨"AZURE_OPENAI_ENDPOINT\\s*=", testKeyThenEq "AZURE_OPENAI_ENDPOINT", "azure-openai", 1/10⟩,
    ⟨"GOOGLE_API_KEY\\s*=", testKeyThenEq "GOOGLE_API_KEY", "google", 1/20⟩,
    ⟨"GEMINI_API_KEY\\s*=", testKeyThenEq "GEMINI_API_KEY", "google", 1/10⟩,
    ⟨"AWS_BEDROCK", testSubstr "AWS_BEDROCK", "aws-bedrock", 1/10⟩,
    ⟨"HUGGINGFACE_API_KEY\\s*=", testKeyThenEq "HUGGINGFACE_API_KEY", "huggingface", 1/20⟩,
    ⟨"COHERE_API_KEY\\s*=", testKeyThenEq "COHERE_API_KEY", "cohere", 1/20⟩,
    ⟨"OPENROUTER_API_KEY\\s*=", testKeyThenEq "OPENROUTER_API_KEY", "openrouter", 1/10⟩ ]

/-- `analyzeEnvFile` from `scanners/local.ts`: for every env pattern whose
regex tests positive on the whole file content, emit one evidence item
whose matched text is the fixed redaction description (never the value). -/
def analyzeEnvFile (content filePath : String) : List DetectionEvidence :=
  ENV_VAR_PATTERNS.foldl
    (fun evidence envPattern =>
      if envPattern.test content then
        evidence ++
          [{ type := .env_var
             pattern := envPattern.source
             matchedText := envPattern.provider ++ " API key detected (value redacted)"
             filePath := filePath
             line := none
             confidenceContribution := envPattern.confidence }]
      else evidence)
    []

theorem analyzeEnvFile_mem (content filePath : String) (e : DetectionEvidence)
    (he : e ∈ analyzeEnvFile content filePath) :
    ∃ p ∈ ENV_VAR_PATTERNS, p.test content = true ∧ e.pattern = p.source ∧
      e.matchedText = p.provider ++ " API key detected (value redacted)" := by
  have expand : ∀ (ps : List EnvPattern) (acc : List DetectionEvidence),
      e ∈ ps.foldl
        (fun evidence envPattern =>
          if envPattern.test content then
            evidence ++
              [{ type := .env_var
                 pattern := envPattern.source
                 matchedText := envPattern.provider ++ " API key detected (value redacted)"
                 filePath := filePath
                 line := none
                 confidenceContribution := envPattern.confidence }]
          else evidence) acc →
      e ∈ acc ∨ ∃ p ∈ ps, p.test content = true ∧ e.pattern = p.source ∧
        e.matchedText = p.provider ++ " API key detected (value redacted)" := by
    intro ps
    induction ps with
    | nil => intro acc h; exact Or.inl h
    | cons p rest ih =>
      intro acc h
      simp only [List.foldl_cons] at h
      cases hp : p.test content with
      | true =>
        simp only [hp, if_true] at h
        rcases ih _ h with hin | ⟨q, hq, hqs⟩
        · rcases List.mem_append.mp hin with hacc | hone
          · exact Or.inl hacc
          · refine Or.inr ⟨p, List.mem_cons_self _ _, hp, ?_, ?_⟩ <;>
              · simp only [List.mem_singleton] at hone; subst hone; rfl
        · exact Or.inr ⟨q, List.mem_cons_of_mem _ hq, hqs⟩
      | false =>
        simp only [hp, if_false] at h
        rcases ih _ h with hin | ⟨q, hq, hqs⟩
        · exact Or.inl hin
        · exact Or.inr ⟨q, List.mem_cons_of_mem _ hq, hqs⟩
  rcases expand ENV_VAR_PATTERNS [] he with hnil | hfound
  · cases hnil
  · exact hfound

/-- **C6.** Every environment-variable evidence item produced by
`analyzeEnvFile` has as `matchedText` the fixed redaction description
determined only by the provider of the matched pattern, and that text
never contains the literal value assigned in the scanned file: every
common API-key-shaped value contains a decimal digit, while none of the
ten possible redaction descriptions contains a digit, so no such value can
occur inside the matched text. -/
theorem analyzeEnvFile_matchedText_redacted (content filePath : String)
    (e : DetectionEvidence) (he : e ∈ analyzeEnvFile content filePath) :
    (∃ p ∈ ENV_VAR_PATTERNS, p.test content = true ∧ e.pattern = p.source ∧
      e.matchedText = p.provider ++ " API key detected (value redacted)") ∧
    ∀ v : String, (∃ c ∈ v.data, c.isDigit) →
      ¬ List.IsInfix v.data e.matchedText.data := by
  obtain ⟨p, hp, htest, hpat, htext⟩ := analyzeEnvFile_mem content filePath e he
  refine ⟨⟨p, hp, htest, hpat, htext⟩, ?_⟩
  rintro v ⟨c, hcv, hcdig⟩ ⟨s, t, hst⟩
  have hnodigit : ∀ d ∈ e.matchedText.data, d.isDigit = false := by
    rw [htext]
    fin_cases hp <;> decide
  have hcm : c ∈ e.matchedText.data := by
    rw [← hst]
    simp [hcv]
  rw [hnodigit c hcm] at hcdig
  cases hcdig

/-- The env evidence item that the openai pattern produces for `.env`. -/
def sampleEnvEvidence : DetectionEvidence :=
  { type := .env_var
    pattern := "OPENAI_API_KEY\\s*="
    matchedText := "openai API key detected (value redacted)"
    filePath := ".env"
    line := none
    confidenceContribution := 1/10 }

/-- Witness for C6 at a concrete `.env` content holding a secret value. -/
theorem analyzeEnvFile_matchedText_redacted_witness :
    sampleEnvEvidence ∈ analyzeEnvFile "OPENAI_API_KEY=sk-abc123" ".env" ∧
    ((∃ p ∈ ENV_VAR_PATTERNS, p.test "OPENAI_API_KEY=sk-abc123" = true ∧
        sampleEnvEvidence.pattern = p.source ∧
        sampleEnvEvidence.matchedText =
          p.provider ++ " API key detected (value redacted)") ∧
      ∀ v : String, (∃ c ∈ v.data, c.isDigit) →
        ¬ List.IsInfix v.data sampleEnvEvidence.matchedText.data) :=
  have hmem : sampleEnvEvidence ∈ analyzeEnvFile "OPENAI_API_KEY=sk-abc123" ".env" := by
    rw [show analyzeEnvFile "OPENAI_API_KEY=sk-abc123" ".env" = [sampleEnvEvidence] from rfl]
    exact List.mem_singleton_self _
  ⟨hmem, analyzeEnvFile_matchedText_redacted _ _ _ hmem⟩

/-- `DependencyMapping` from `patterns/config/index.ts`. -/
structure DependencyMapping where
  name : String
  framework : String
  confidence : ℚ
  language : String
deriving DecidableEq, Repr

/-- `DEPENDENCY_MAPPINGS` from `patterns/config/index.ts`. -/
def DEPENDENCY_MAPPINGS : List DependencyMapping :=
  [ ⟨"langchain", "langchain", 3/10, "python"⟩,
    ⟨"langchain-core", "langchain", 3/10, "python"⟩,
    ⟨"langchain-openai", "langchain", 3/10, "python"⟩,
    ⟨"langchain-anthropic", "langchain", 3/10, "python"⟩,
    ⟨"langchain-community", "langchain", 3/10, "python"⟩,
    ⟨"langgraph", "langgraph", 3/10, "python"⟩,
    ⟨"langgraph-checkpoint", "langgraph", 1/4, "python"⟩,
    ⟨"crewai", "crewai", 3/10, "python"⟩,
    ⟨"crewai-tools", "crewai", 1/4, "python"⟩,
    ⟨"autogen", "autogen", 3/10, "python"⟩,
    ⟨"pyautogen", "autogen", 3/10, "python"⟩,
    ⟨"ag2", "autogen", 3/10, "python"⟩,
    ⟨"autogen-agentchat", "autogen", 3/10, "python"⟩,
    ⟨"semantic-kernel", "semantic-kernel", 3/10, "python"⟩,
    ⟨"haystack-ai", "haystack", 3/10, "python"⟩,
    ⟨"haystack", "haystack", 1/4, "python"⟩,
    ⟨"llama-index", "llamaindex", 1/4, "python"⟩,
    ⟨"llama-index-core", "llamaindex", 1/4, "python"⟩,
    ⟨"openai", "openai-assistants", 3/20, "any"⟩,
    ⟨"anthropic", "anthropic-claude", 3/20, "any"⟩,
    ⟨"claude-agent-sdk", "anthropic-claude", 7/20, "python"⟩,
    ⟨"vertexai", "google-vertex", 1/5, "python"⟩,
    ⟨"langchain-google-vertexai", "google-vertex", 1/4, "python"⟩,
    ⟨"@langchain/core", "langchain", 3/10, "typescript"⟩,
    ⟨"@langchain/openai", "langchain", 3/10, "typescript"⟩,
    ⟨"@langchain/anthropic", "langchain", 3/10, "typescript"⟩,
    ⟨"@langchain/community", "langchain", 3/10, "typescript"⟩,
    ⟨"ai", "vercel-ai", 1/5, "typescript"⟩,
    ⟨"@ai-sdk/openai", "vercel-ai", 1/4, "typescript"⟩,
    ⟨"@ai-sdk/anthropic", "vercel-ai", 1/4, "typescript"⟩,
    ⟨"@ai-sdk/google", "vercel-ai", 1/4, "typescript"⟩ ]

/-- A single-quote string, written without a quote character. -/
def singleQuote : String := String.mk [Char.ofNat 39]

/-- The delimiter class `[>=<![#;]` used to clean a requirements line. -/
def depLineDelims : List Char := ['>', '=', '<', '!', '[', '#', ';']

/-- `analyzeDependencyFile` from `scanners/local.ts`.  `JSON.parse` of a
`package.json` (merging `dependencies` and `devDependencies`) is
abstracted into the `parseDeps` parameter, returning `none` on a parse
error and otherwise the merged name/version pairs. -/
def analyzeDependencyFile (parseDeps : String → Option (List (String × String)))
    (content filePath fileName : String) : List DetectionEvidence :=
  if fileName = "requirements.txt" ∨ fileName = "Pipfile" then
    (content.splitOn "\n").foldl
      (pushIfMatch (fun line =>
        let cleanLine :=
          ((line.trim.toLower).takeWhile (fun c => !(depLineDelims.contains c))).trim
        (DEPENDENCY_MAPPINGS.find?
            (fun d => decide (d.name = cleanLine ∧
              (d.language = "python" ∨ d.language = "any")))).map
          (fun m =>
            { type := .dependency
              pattern := m.name
              matchedText := (line.trim).take 200
              filePath := filePath
              line := none
              confidenceContribution := m.confidence })))
      []
  else if fileName = "pyproject.toml" then
    DEPENDENCY_MAPPINGS.foldl
      (pushIfMatch (fun dep =>
        if (dep.language = "python" ∨ dep.language = "any") ∧
            (testSubstr ("\"" ++ dep.name ++ "\"") content ∨
             testSubstr (singleQuote ++ dep.name ++ singleQuote) content ∨
             testSubstr dep.name content) then
          some
            { type := .dependency
              pattern := dep.name
              matchedText := dep.name
              filePath := filePath
              line := none
              confidenceContribution := dep.confidence }
        else none))
      []
  else if fileName = "package.json" then
    match parseDeps content with
    | none => []
    | some allDeps =>
      allDeps.foldl
        (pushIfMatch (fun kv =>
          (DEPENDENCY_MAPPINGS.find?
              (fun d => decide (d.name = kv.1 ∧
                (d.language = "typescript" ∨ d.language = "javascript" ∨
                 d.language = "any")))).map
            (fun m =>
              { type := .dependency
                pattern := m.name
                matchedText := kv.1 ++ ": " ++ kv.2
                filePath := filePath
                line := none
                confidenceContribution := m.confidence })))
        []
  else []

/-- `AgentLocation` from `types/index.ts` (local scans never set
`repository`). -/
structure AgentLocation where
  filePath : String
  line : Option Nat := none
  column : Option Nat := none
deriving DecidableEq, Repr

/-- The metadata fields of `AgentRecord` that the local pipeline writes.
`Date` values are modelled as epoch milliseconds. -/
structure AgentMetadata where
  language : String
  entryPoint : Option String := none
  owner : Option String := none
  lastModified : Option Int := none
deriving DecidableEq, Repr

/-- `RiskSeverity` from `types/index.ts`. -/
inductive RiskSeverity
  | low
  | medium
  | high
  | critical
deriving DecidableEq, Repr

/-- `RiskFlag` from `types/index.ts`. -/
structure RiskFlag where
  severity : RiskSeverity
  type : String
  description : String
deriving DecidableEq, Repr

/-- `AgentRecord` from `types/index.ts`.  `capabilities` is omitted: the
local pipeline never writes it, and the risk rules that read it are
abstracted into the scan environment. -/
structure AgentRecord where
  id : String
  name : String
  framework : String
  confidence : ℚ
  location : AgentLocation
  metadata : AgentMetadata
  risks : Option (List RiskFlag) := none
  evidence : List DetectionEvidence
deriving DecidableEq, Repr

/-- `LANGUAGE_EXTENSIONS` from `patterns/index.ts`. -/
def LANGUAGE_EXTENSIONS : List (String × String) :=
  [ (".py", "python"), (".pyw", "python"),
    (".ts", "typescript"), (".tsx", "typescript"),
    (".js", "javascript"), (".jsx", "javascript"),
    (".mjs", "javascript"), (".cjs", "javascript") ]

/-- `ext in LANGUAGE_EXTENSIONS` and the mapped language. -/
def lookupLanguage (ext : String) : Option String :=
  (LANGUAGE_EXTENSIONS.find? (fun p => p.1 == ext)).map (fun p => p.2)

/-- `detectLanguage` from `analyzers/file-analyzer.ts`, on the lowercased
extension. -/
def detectLanguage (ext : String) : String :=
  (lookupLanguage ext).getD "unknown"

/-- `DEPENDENCY_FILES` from `patterns/index.ts`. -/
def DEPENDENCY_FILES : List String :=
  ["requirements.txt", "pyproject.toml", "setup.py", "setup.cfg", "Pipfile", "package.json"]

/-- `MAX_FILE_SIZE` from `patterns/index.ts` (1 MB). -/
def MAX_FILE_SIZE : Nat := 1000000

/-- `getAgentConfigFileNames` from `patterns/index.ts`: every framework's
`configFiles` plus the generic agent config names, deduplicated
(`[...new Set(names)]`). -/
def getAgentConfigFileNames (registry : List FrameworkPatterns) : List String :=
  let names := (registry.foldl (fun ns p => ns ++ p.configFiles) []) ++
    ["agents.yaml", "agents.yml", "agent.json", "agent_config.json", "agent_config.yaml"]
  names.foldl seenInsert []

/-- `getPatternsForLanguage` from `patterns/index.ts`. -/
def getPatternsForLanguage (registry : List FrameworkPatterns)
    (language : String) : List FrameworkPatterns :=
  registry.filter (fun p => language ∈ p.languages)

/-- The merge performed by `deduplicatePatterns` when a framework appears
twice. -/
def mergeFrameworkPatterns (existing p : FrameworkPatterns) : FrameworkPatterns :=
  { existing with
    imports := existing.imports ++ p.imports
    instantiations := existing.instantiations ++ p.instantiations
    configFiles := existing.configFiles ++ p.configFiles
    dependencies := existing.dependencies ++ p.dependencies }

/-- One step of `deduplicatePatterns`' `Map` building: first occurrence is
appended, later occurrences are merged into it in place. -/
def upsertMerge (seen : List FrameworkPatterns) (p : FrameworkPatterns) :
    List FrameworkPatterns :=
  if seen.any (fun q => q.framework == p.framework) then
    seen.map (fun q => if q.framework = p.framework then mergeFrameworkPatterns q p else q)
  else seen ++ [p]

/-- `deduplicatePatterns` from `analyzers/file-analyzer.ts`. -/
def deduplicatePatterns (patterns : List FrameworkPatterns) : List FrameworkPatterns :=
  patterns.foldl upsertMerge []

/-- `FileDetection` from `analyzers/file-analyzer.ts`. -/
structure FileDetection where
  framework : String
  displayName : String
  evidence : List DetectionEvidence
  totalConfidence : ℚ

/-- `FileAnalysisResult` from `analyzers/file-analyzer.ts`. -/
structure FileAnalysisResult where
  filePath : String
  language : String
  detections : List FileDetection

/-- The pattern sets `analyzeContent` tries for a language: those of the
language itself plus, for TypeScript/JavaScript, those of the other
variant, deduplicated by framework. -/
def applicablePatterns (registry : List FrameworkPatterns)
    (language : String) : List FrameworkPatterns :=
  let patterns := getPatternsForLanguage registry language
  let additionalLanguage : Option String :=
    if language = "typescript" then some "javascript"
    else if language = "javascript" then some "typescript"
    else none
  let allPatterns :=
    match additionalLanguage with
    | some l => patterns ++ getPatternsForLanguage registry l
    | none => patterns
  deduplicatePatterns allPatterns

/-- The body of `analyzeContent`'s detection loop: keep a detection with
aggregated confidence whenever some evidence matched. -/
def detectionStep (content filePath : String) (ds : List FileDetection)
    (frameworkPatterns : FrameworkPatterns) : List FileDetection :=
  let evidence := matchPatterns content filePath frameworkPatterns
  if 0 < evidence.length then
    ds ++ [⟨frameworkPatterns.framework, frameworkPatterns.displayName,
            evidence, calculateConfidence evidence⟩]
  else ds

/-- `analyzeContent` from `analyzers/file-analyzer.ts` (also the body of
`analyzeFile` once the content is read). -/
def analyzeContent (registry : List FrameworkPatterns)
    (content filePath language : String) : FileAnalysisResult :=
  if language = "unknown" then ⟨filePath, language, []⟩
  else
    ⟨filePath, language,
      (applicablePatterns registry language).foldl (detectionStep content filePath) []⟩

/-- `GitBlameResult` from `enrichers/git-blame.ts`, dates as epoch ms. -/
structure GitBlameResult where
  owner : Option String
  lastModified : Option Int
  authors : List String

/-- The IO-dependent collaborators of one scan, fixed for its duration:
the pattern registry (regex execution abstracted inside
`PatternDefinition`), `JSON.parse` for `package.json`, the
`extractAgentName` regex heuristic, and git availability/history for the
ownership enricher; `riskRules` are the per-record rules of
`enrichers/risk.ts`, whose regex and date tests are likewise abstracted. -/
structure ScanEnv where
  registry : List FrameworkPatterns
  parsePackageJsonDeps : String → Option (List (String × String))
  extractName : String → Option String → String
  isRepo : Bool
  blame : String → GitBlameResult
  riskRules : List (AgentRecord → Option RiskFlag)

/-- `ScanOptions` from `types/index.ts`, restricted to the fields the
orchestrator and local scanner read.  `github` is the truthiness of the
optional GitHub options object. -/
structure ScanOptions where
  path : Option String := none
  github : Bool := false
  confidenceThreshold : Option ℚ := none
  maxFiles : Option Nat := none

/-- `CONFIDENCE_THRESHOLDS.REPORT` from `analyzers/confidence.ts` (0.4). -/
def CONFIDENCE_THRESHOLDS_REPORT : ℚ := 2/5

/-- One file handed to the scan loop by discovery: its path relative to
the scan root, its basename and lowercased extension (computed by Node's
`path` helpers), its content and its on-disk size in bytes. -/
structure ScanFile where
  path : String
  name : String
  ext : String
  content : String
  size : Nat

/-- The mutable state of the scan loop: the agent `Map` in insertion
order, the two pending auxiliary evidence lists, and the counter standing
in for `randomUUID`. -/
structure ScanState where
  agentList : List AgentRecord
  dependencyEvidence : List DetectionEvidence
  envEvidence : List DetectionEvidence
  nextId : Nat

/-- The `Map` key `` `${framework}:${file}` `` of a record. -/
def agentKey (a : AgentRecord) : String := a.framework ++ ":" ++ a.location.filePath

/-- `agentMap.has(key)`. -/
def hasKey (agents : List AgentRecord) (key : String) : Bool :=
  agents.any (fun a => agentKey a == key)

/-- `join(scanPath, file)`; Node's separator normalization is not
modelled (no claim reads the absolute path text). -/
def joinPath (a b : String) : String := a ++ "/" ++ b

/-- The body of the detection loop of the source-file branch: insert one
record when the detection meets the confidence threshold and its
`` `${framework}:${file}` `` key is new. -/
def insertDetection (env : ScanEnv) (threshold : ℚ) (file : ScanFile)
    (language : String) (st : ScanState) (detection : FileDetection) : ScanState :=
  if threshold ≤ detection.totalConfidence then
    if hasKey st.agentList (detection.framework ++ ":" ++ file.path) then st
    else
      { st with
        agentList := st.agentList ++
          [{ id := "ag_" ++ toString st.nextId
             name := env.extractName file.path (some file.content)
             framework := detection.framework
             confidence := detection.totalConfidence
             location := { filePath := file.path }
             metadata := { language := language, entryPoint := some file.path }
             evidence := detection.evidence }]
        nextId := st.nextId + 1 }
  else st

/-- The source-file branch of the scan loop: analyze the file and insert
one record per detection meeting the confidence threshold. -/
def processSourceDetections (env : ScanEnv) (threshold : ℚ) (scanPath : String)
    (file : ScanFile) (st : ScanState) : ScanState :=
  let result := analyzeContent env.registry file.content
    (joinPath scanPath file.path) (detectLanguage file.ext)
  result.detections.foldl (insertDetection env threshold file result.language) st

/-- The agent-config branch of the scan loop: a `crewai.yaml`/`crewai.yml`
file creates a crewai record at fixed confidence 0.7 whose single evidence
item is the config-file evidence with its contribution overridden to 0.7
(`{ ...configEvidence, confidenceContribution: 0.7 }`); other config names
build the 0.1-weight evidence but attribute it to no framework. -/
def processConfigFile (st : ScanState) (file : ScanFile) : ScanState :=
  if file.name = "crewai.yaml" ∨ file.name = "crewai.yml" then
    if hasKey st.agentList ("crewai:" ++ file.path) then st
    else
      { st with
        agentList := st.agentList ++
          [{ id := "ag_" ++ toString st.nextId
             name := "CrewAI Agent"
             framework := "crewai"
             confidence := 7/10
             location := { filePath := file.path }
             metadata := { language := "python" }
             evidence :=
               [{ type := .config_file
                  pattern := file.name
                  matchedText := file.name
                  filePath := file.path
                  line := none
                  confidenceContribution := 7/10 }] }]
        nextId := st.nextId + 1 }
  else st

/-- `String.startsWith` on character lists (the byte-level core version
does not reduce definitionally). -/
def jsStartsWith (pre s : String) : Bool := pre.data.isPrefixOf s.data

/-- One iteration of the scan loop of `scanLocal`: skip oversized files,
then run the four independent per-file checks (source analysis,
dependency manifest, `.env` file, agent config file). -/
def processFile (env : ScanEnv) (threshold : ℚ) (scanPath : String)
    (st : ScanState) (file : ScanFile) : ScanState :=
  if MAX_FILE_SIZE < file.size then st
  else
    let st1 := if (lookupLanguage file.ext).isSome
      then processSourceDetections env threshold scanPath file st else st
    let st2 := if file.name ∈ DEPENDENCY_FILES then
        { st1 with dependencyEvidence := st1.dependencyEvidence ++
            analyzeDependencyFile env.parsePackageJsonDeps file.content file.path file.name }
      else st1
    let st3 := if file.name = ".env" ∨ jsStartsWith ".env." file.name then
        { st2 with envEvidence := st2.envEvidence ++ analyzeEnvFile file.content file.path }
      else st2
    if file.name ∈ getAgentConfigFileNames env.registry
      then processConfigFile st3 file else st3

/-- `enrichWithDependencies` from `scanners/local.ts`: each dependency
evidence item whose pattern has a mapping is appended to every agent of
the mapped framework not already holding dependency evidence for the same
pattern, adding half its contribution to the confidence, capped at 1. -/
def enrichWithDependencies (agents : List AgentRecord)
    (depEvidence : List DetectionEvidence) : List AgentRecord :=
  depEvidence.foldl
    (fun agents dep =>
      match DEPENDENCY_MAPPINGS.find? (fun d => d.name == dep.pattern) with
      | none => agents
      | some mapping =>
        agents.map (fun agent =>
          if agent.framework = mapping.framework then
            if agent.evidence.any (fun e =>
                decide (e.type = EvidenceType.dependency ∧ e.pattern = dep.pattern)) then
              agent
            else
              { agent with
                evidence := agent.evidence ++ [dep]
                confidence := min 1 (agent.confidence + dep.confidenceContribution * (1/2)) }
          else agent))
    agents

/-- `enrichWithEnvVars` from `scanners/local.ts`: each env evidence item
is broadcast to every agent not already holding env evidence for the same
pattern, adding a flat 0.05, capped at 1. -/
def enrichWithEnvVars (agents : List AgentRecord)
    (envEvidence : List DetectionEvidence) : List AgentRecord :=
  envEvidence.foldl
    (fun agents env =>
      agents.map (fun agent =>
        if agent.evidence.any (fun e =>
            decide (e.type = EvidenceType.env_var ∧ e.pattern = env.pattern)) then
          agent
        else
          { agent with
            evidence := agent.evidence ++ [env]
            confidence := min 1 (agent.confidence + 1/20) }))
    agents

/-- Insertion step of `.sort((a, b) => b.confidence - a.confidence)`. -/
def insertByConfidence (a : AgentRecord) : List AgentRecord → List AgentRecord
  | [] => [a]
  | b :: rest =>
    if b.confidence < a.confidence then a :: b :: rest
    else b :: insertByConfidence a rest

/-- `Array.from(agentMap.values()).sort((a, b) => b.confidence -
a.confidence)`: any comparator-correct sort; insertion sort here. -/
def sortByConfidenceDesc (agents : List AgentRecord) : List AgentRecord :=
  agents.foldr insertByConfidence []

/-- `enrichWithGitBlame` from `enrichers/git-blame.ts`: silently skip when
not a git repo; otherwise set owner and last-modified from the per-file
history (the per-path cache is invisible here since `blame` is a pure
function of the path). -/
def enrichWithGitBlame (env : ScanEnv) (agents : List AgentRecord) : List AgentRecord :=
  if env.isRepo then
    agents.map (fun agent =>
      let b := env.blame agent.location.filePath
      { agent with metadata :=
          { agent.metadata with owner := b.owner, lastModified := b.lastModified } })
  else agents

/-- `evaluateAgentRisks` from `enrichers/risk.ts`: run every rule, keep
the flags. -/
def evaluateAgentRisks (rules : List (AgentRecord → Option RiskFlag))
    (agent : AgentRecord) : List RiskFlag :=
  rules.foldl (pushIfMatch (fun rule => rule agent)) []

/-- The risk summary returned by `enrichWithRisks`. -/
structure RiskSummary where
  critical : Nat
  high : Nat
  medium : Nat
  low : Nat
  details : List RiskFlag
deriving DecidableEq, Repr

/-- Count the flags of one severity. -/
def countSeverity (flags : List RiskFlag) (s : RiskSeverity) : Nat :=
  flags.countP (fun r => r.severity == s)

/-- `enrichWithRisks` from `enrichers/risk.ts`: write each agent's flags
onto it, flatten all per-agent flags, then append the two scan-level rules
(framework sprawl at ≥ 4 distinct frameworks, high agent count at > 20),
and report per-severity counts over the collected flags. -/
def enrichWithRisks (rules : List (AgentRecord → Option RiskFlag))
    (agents : List AgentRecord) : List AgentRecord × RiskSummary :=
  let enriched := agents.map (fun a => { a with risks := some (evaluateAgentRisks rules a) })
  let perAgentRisks := agents.foldl (fun acc a => acc ++ evaluateAgentRisks rules a) []
  let frameworkCount := ((agents.map (fun a => a.framework)).foldl seenInsert []).length
  let withSprawl :=
    if 4 ≤ frameworkCount then
      perAgentRisks ++
        [⟨.medium, "framework-sprawl",
          toString frameworkCount ++ " different agent frameworks detected — consider standardizing"⟩]
    else perAgentRisks
  let allRisks :=
    if 20 < agents.length then
      withSprawl ++
        [⟨.high, "high-agent-count",
          toString agents.length ++ " agents detected — governance becomes critical at this scale"⟩]
    else withSprawl
  (enriched,
    { critical := countSeverity allRisks .critical
      high := countSeverity allRisks .high
      medium := countSeverity allRisks .medium
      low := countSeverity allRisks .low
      details := allRisks })

/-- The `frameworkBreakdown` record built at result assembly. -/
def frameworkBreakdown (agents : List AgentRecord) : List (String × Nat) :=
  agents.foldl
    (fun acc a =>
      if acc.any (fun kv => kv.1 == a.framework) then
        acc.map (fun kv => if kv.1 = a.framework then (kv.1, kv.2 + 1) else kv)
      else acc ++ [(a.framework, 1)])
    []

/-- `ScanResult` from `types/index.ts`, restricted to the fields computed
by the pipeline itself (wall-clock duration and timestamp are IO). -/
structure ScanResult where
  totalAgents : Nat
  totalFiles : Nat
  agents : List AgentRecord
  frameworkBreakdown : List (String × Nat)
  risks : RiskSummary
  confidenceThreshold : ℚ

/-- `scanLocal` from `scanners/local.ts`, taking the discovered file list
(after the glob and ignore filtering) as input: cap at `maxFiles`, run the
per-file loop, fold in dependency and env evidence, sort by descending
confidence, enrich ownership, evaluate risks, assemble the result. -/
def scanLocal (env : ScanEnv) (options : ScanOptions)
    (discoveredFiles : List ScanFile) : ScanResult :=
  let scanPath := options.path.getD ""
  let confidenceThreshold := options.confidenceThreshold.getD CONFIDENCE_THRESHOLDS_REPORT
  let maxFiles := options.maxFiles.getD 10000
  let files := discoveredFiles.take maxFiles
  let st := files.foldl (processFile env confidenceThreshold scanPath) ⟨[], [], [], 0⟩
  let agents1 := enrichWithDependencies st.agentList st.dependencyEvidence
  let agents2 := enrichWithEnvVars agents1 st.envEvidence
  let agents3 := sortByConfidenceDesc agents2
  let agents4 := enrichWithGitBlame env agents3
  let result := enrichWithRisks env.riskRules agents4
  { totalAgents := result.1.length
    totalFiles := files.length
    agents := result.1
    frameworkBreakdown := frameworkBreakdown result.1
    risks := result.2
    confidenceThreshold := confidenceThreshold }

/-- `scan` from `orchestrator.ts`: a truthy `github` option raises the
unsupported-operation error before any scanning work; otherwise scan
locally. -/
def scan (env : ScanEnv) (options : ScanOptions) (discoveredFiles : List ScanFile) :
    Except String ScanResult :=
  if options.github then
    Except.error
      "GitHub scanning is not yet implemented. Use local scanning: agentgov audit --path /your/code"
  else
    Except.ok (scanLocal env options discoveredFiles)

/-- A scan environment with no registry entries and trivial collaborators,
used to instantiate environment-polymorphic theorems. -/
def emptyScanEnv : ScanEnv :=
  { registry := []
    parsePackageJsonDeps := fun _ => none
    extractName := fun p _ => p
    isRepo := false
    blame := fun _ => ⟨none, none, []⟩
    riskRules := [] }

/-- **C9.** A scan request selecting the networked (GitHub) mode makes the
orchestrator raise the descriptive unsupported-operation error
immediately; the outcome is the bare error — no partial result — and is
independent of the discovered tree, so no discovery or matching work
contributes to it. -/
theorem scan_github_unsupported (env : ScanEnv) (options : ScanOptions)
    (discoveredFiles : List ScanFile) (h : options.github = true) :
    scan env options discoveredFiles =
      Except.error
        "GitHub scanning is not yet implemented. Use local scanning: agentgov audit --path /your/code" ∧
    ∀ otherFiles : List ScanFile,
      scan env options otherFiles = scan env options discoveredFiles := by
  constructor
  · simp [scan, h]
  · intro otherFiles; simp [scan, h]

/-- Witness for C9: a concrete GitHub-mode request on the empty tree. -/
theorem scan_github_unsupported_witness :
    scan emptyScanEnv { github := true } [] =
      Except.error
        "GitHub scanning is not yet implemented. Use local scanning: agentgov audit --path /your/code" :=
  (scan_github_unsupported emptyScanEnv { github := true } [] rfl).1

/-- Members of an insertion step are the inserted element or old members. -/
theorem mem_insertByConfidence (a y : AgentRecord) (l : List AgentRecord) :
    y ∈ insertByConfidence a l ↔ y = a ∨ y ∈ l := by
  induction l with
  | nil => simp [insertByConfidence]
  | cons b rest ih =>
    by_cases hb : b.confidence < a.confidence
    · simp [insertByConfidence, hb, or_left_comm, or_comm]
    · simp only [insertByConfidence, if_neg hb, List.mem_cons, ih]
      tauto

/-- Inserting keeps the list sorted by descending confidence. -/
theorem insertByConfidence_pairwise (a : AgentRecord) (l : List AgentRecord)
    (h : l.Pairwise (fun x y => y.confidence ≤ x.confidence)) :
    (insertByConfidence a l).Pairwise (fun x y => y.confidence ≤ x.confidence) := by
  induction l with
  | nil => simp [insertByConfidence]
  | cons b rest ih =>
    rcases List.pairwise_cons.mp h with ⟨hb, hrest⟩
    by_cases hba : b.confidence < a.confidence
    · rw [insertByConfidence, if_pos hba]
      refine List.pairwise_cons.mpr ⟨?_, h⟩
      intro y hy
      rcases List.mem_cons.mp hy with rfl | hyr
      · exact le_of_lt hba
      · exact le_trans (hb y hyr) (le_of_lt hba)
    · rw [insertByConfidence, if_neg hba]
      refine List.pairwise_cons.mpr ⟨?_, ih hrest⟩
      intro y hy
      rcases (mem_insertByConfidence a y rest).mp hy with rfl | hyr
      · exact le_of_not_lt hba
      · exact hb y hyr

/-- The comparator sort produces a descending-confidence list. -/
theorem sortByConfidenceDesc_pairwise (l : List AgentRecord) :
    (sortByConfidenceDesc l).Pairwise (fun x y => y.confidence ≤ x.confidence) := by
  induction l with
  | nil => simp [sortByConfidenceDesc]
  | cons a rest ih =>
    exact insertByConfidence_pairwise a _ ih

/-- Insertion produces a permutation. -/
theorem insertByConfidence_perm (a : AgentRecord) (l : List AgentRecord) :
    List.Perm (insertByConfidence a l) (a :: l) := by
  induction l with
  | nil => simp [insertByConfidence]
  | cons b rest ih =>
    by_cases hb : b.confidence < a.confidence
    · simp [insertByConfidence, hb]
    · rw [insertByConfidence, if_neg hb]
      exact (List.Perm.cons b ih).trans (List.Perm.swap a b rest)

/-- The sort is a permutation of its input. -/
theorem sortByConfidenceDesc_perm (l : List AgentRecord) :
    List.Perm (sortByConfidenceDesc l) l := by
  induction l with
  | nil => simp [sortByConfidenceDesc]
  | cons a rest ih =>
    exact (insertByConfidence_perm a _).trans (List.Perm.cons a ih)

/-- Mapping a confidence-preserving function keeps a descending list
descending. -/
theorem pairwise_map_confidence (f : AgentRecord → AgentRecord)
    (hf : ∀ a, (f a).confidence = a.confidence) (l : List AgentRecord)
    (h : l.Pairwise (fun x y => y.confidence ≤ x.confidence)) :
    (l.map f).Pairwise (fun x y => y.confidence ≤ x.confidence) := by
  rw [List.pairwise_map]
  exact h.imp (fun hxy => by rw [hf, hf]; exact hxy)

/-- **C8.** In every scan result, the `agents` list is sorted by
descending (final) confidence: the sort happens after the dependency and
environment-variable boosts, and the subsequent ownership enrichment and
risk evaluation write only metadata and risk fields, never confidence. -/
theorem scanLocal_agents_sorted_desc (env : ScanEnv) (options : ScanOptions)
    (discoveredFiles : List ScanFile) :
    (scanLocal env options discoveredFiles).agents.Pairwise
      (fun a b => b.confidence ≤ a.confidence) := by
  have hfst : ∀ (rules : List (AgentRecord → Option RiskFlag)) (ags : List AgentRecord),
      (enrichWithRisks rules ags).1 =
        ags.map (fun a => { a with risks := some (evaluateAgentRisks rules a) }) :=
    fun _ _ => rfl
  unfold scanLocal
  simp only [hfst]
  refine pairwise_map_confidence
    (fun a => { a with risks := some (evaluateAgentRisks env.riskRules a) })
    (fun a => rfl) _ ?_
  unfold enrichWithGitBlame
  by_cases hrepo : env.isRepo = true
  · rw [if_pos hrepo]
    exact pairwise_map_confidence
      (fun agent =>
        let b := env.blame agent.location.filePath
        { agent with metadata :=
            { agent.metadata with owner := b.owner, lastModified := b.lastModified } })
      (fun a => rfl) _ (sortByConfidenceDesc_pairwise _)
  · rw [if_neg hrepo]
    exact sortByConfidenceDesc_pairwise _

/-- Modelled from claim C7's wording (refinement specification): the
effect of one dependency evidence item on one agent record — if the
item's pattern has a dependency mapping, the agent's framework equals the
mapped framework, and the agent does not already hold dependency evidence
for the same pattern, the item is appended and the confidence grows by
half the item's raw contribution, capped at 1.0; otherwise the record is
untouched. -/
def specDepAgentStep (dep : DetectionEvidence) (agent : AgentRecord) : AgentRecord :=
  match DEPENDENCY_MAPPINGS.find? (fun d => d.name == dep.pattern) with
  | none => agent
  | some mapping =>
    if agent.framework = mapping.framework ∧
        ¬ ∃ e ∈ agent.evidence,
          e.type = EvidenceType.dependency ∧ e.pattern = dep.pattern then
      { agent with
        evidence := agent.evidence ++ [dep]
        confidence := min 1 (agent.confidence + dep.confidenceContribution * (1/2)) }
    else agent

/-- One pass of the implementation's dependency fold acts on every agent
independently as the claim describes. -/
theorem depStep_eq_map (agents : List AgentRecord) (dep : DetectionEvidence) :
    (match DEPENDENCY_MAPPINGS.find? (fun d => d.name == dep.pattern) with
      | none => agents
      | some mapping =>
        agents.map (fun agent =>
          if agent.framework = mapping.framework then
            if agent.evidence.any (fun e =>
                decide (e.type = EvidenceType.dependency ∧ e.pattern = dep.pattern)) then
              agent
            else
              { agent with
                evidence := agent.evidence ++ [dep]
                confidence := min 1 (agent.confidence + dep.confidenceContribution * (1/2)) }
          else agent)) = agents.map (specDepAgentStep dep) := by
  cases hfind : DEPENDENCY_MAPPINGS.find? (fun d => d.name == dep.pattern) with
  | none =>
    have h : ∀ a ∈ agents, specDepAgentStep dep a = id a := fun a _ => by
      simp [specDepAgentStep, hfind]
    rw [List.map_congr_left h, List.map_id]
  | some mapping =>
    apply List.map_congr_left
    intro agent _
    by_cases hfw : agent.framework = mapping.framework
    · by_cases hhas : ∃ e ∈ agent.evidence,
          e.type = EvidenceType.dependency ∧ e.pattern = dep.pattern
      · have hany : agent.evidence.any (fun e =>
            decide (e.type = EvidenceType.dependency ∧ e.pattern = dep.pattern)) = true := by
          rcases hhas with ⟨e, he, hprop⟩
          exact List.any_eq_true.mpr ⟨e, he, decide_eq_true hprop⟩
        simp [specDepAgentStep, hfind, hfw, hany, hhas]
      · have hany : agent.evidence.any (fun e =>
            decide (e.type = EvidenceType.dependency ∧ e.pattern = dep.pattern)) = false := by
          rw [List.any_eq_false]
          intro e he
          simp only [decide_eq_true_eq]
          intro hprop
          exact hhas ⟨e, he, hprop⟩
        simp [specDepAgentStep, hfind, hfw, hany, hhas]
    · simp [specDepAgentStep, hfind, hfw]

/-- **C7.** During auxiliary-evidence fold-in, the dependency enrichment
treats every agent independently: the implementation equals, record by
record, the fold of the claim's per-item rule (`specDepAgentStep`) —
append the item to every record of the mapped framework unless it already
holds dependency evidence for the same pattern, raising the confidence by
exactly half the item's raw contribution, capped at 1.0. -/
theorem enrichWithDependencies_eq_spec (agents : List AgentRecord)
    (depEvidence : List DetectionEvidence) :
    enrichWithDependencies agents depEvidence =
      agents.map (fun a => depEvidence.foldl (fun agent dep => specDepAgentStep dep agent) a) := by
  induction depEvidence generalizing agents with
  | nil => simp [enrichWithDependencies]
  | cons dep rest ih =>
    have hstep :
        enrichWithDependencies agents (dep :: rest) =
          enrichWithDependencies (agents.map (specDepAgentStep dep)) rest := by
      unfold enrichWithDependencies
      rw [List.foldl_cons]
      congr 1
      exact depStep_eq_map agents dep
    rw [hstep, ih]
    rw [List.map_map]
    simp [Function.comp]

theorem calculateConfidence_le_one (evidence : List DetectionEvidence) :
    calculateConfidence evidence ≤ 1 := by
  unfold calculateConfidence
  by_cases h : evidence = []
  · simp [h]
  · rw [if_neg h]
    exact min_le_left _ _

theorem calculateConfidence_nonneg (evidence : List DetectionEvidence)
    (h : ∀ e ∈ evidence, 0 ≤ e.confidenceContribution) :
    0 ≤ calculateConfidence evidence := by
  unfold calculateConfidence
  by_cases hnil : evidence = []
  · simp [hnil]
  · rw [if_neg hnil]
    have hsum : (0 : ℚ) ≤ evidence.foldl (fun t e => t + e.confidenceContribution) 0 := by
      rw [foldl_add_eq_sum, zero_add]
      apply List.sum_nonneg
      intro x hx
      rcases List.mem_map.mp hx with ⟨e, he, rfl⟩
      exact h e he
    have hq : ∀ q : ℚ, 0 ≤ q → (0 : ℚ) ≤ ((jsRound (q * 100) : ℤ) : ℚ) / 100 := by
      intro q hq0
      apply div_nonneg _ (by norm_num)
      have : (0 : ℤ) ≤ jsRound (q * 100) := by
        rw [jsRound]
        apply Int.le_floor.mpr
        push_cast
        nlinarith
      exact_mod_cast this
    apply le_min (by norm_num)
    by_cases hc :
        (evidence.foldl (fun s e => seenInsert s e.type) []).length ≥ 2
    · rw [if_pos hc]
      exact hq _ (by linarith)
    · rw [if_neg hc]
      exact hq _ hsum

/-- The inner line scan copies the pattern's weight into the evidence. -/
theorem scanLinesFor_contrib (pd : PatternDefinition) (fp : String)
    (lines : List String) (i : Nat) (e : DetectionEvidence)
    (h : scanLinesFor pd fp lines i = some e) :
    e.confidenceContribution = pd.confidence := by
  induction lines generalizing i with
  | nil => simp [scanLinesFor] at h
  | cons line rest ih =>
    rw [scanLinesFor] at h
    cases hx : pd.exec line with
    | some m => rw [hx] at h; cases h; rfl
    | none => rw [hx] at h; exact ih _ h

/-- Membership in a fold that appends a list per element. -/
theorem mem_foldl_pushList {α β : Type} (f : β → List α) (l : List β)
    (acc : List α) (e : α)
    (h : e ∈ l.foldl (fun acc x => acc ++ f x) acc) :
    e ∈ acc ∨ ∃ x ∈ l, e ∈ f x := by
  induction l generalizing acc with
  | nil => exact Or.inl h
  | cons x xs ih =>
    rw [List.foldl_cons] at h
    rcases ih _ h with hin | ⟨y, hy, hey⟩
    · rcases List.mem_append.mp hin with hl | hr
      · exact Or.inl hl
      · exact Or.inr ⟨x, List.mem_cons_self _ _, hr⟩
    · exact Or.inr ⟨y, List.mem_cons_of_mem _ hy, hey⟩

theorem matchPatterns_contrib_nonneg (content filePath : String)
    (fp : FrameworkPatterns)
    (h : ∀ pd ∈ fp.imports ++ fp.instantiations, 0 ≤ pd.confidence) :
    ∀ e ∈ matchPatterns content filePath fp, 0 ≤ e.confidenceContribution := by
  intro e he
  unfold matchPatterns at he
  rw [foldl_pushMatch_eq_filterMap] at he
  simp only [List.nil_append] at he
  rcases List.mem_filterMap.mp he with ⟨pd, hpd, hsome⟩
  rw [scanLinesFor_contrib _ _ _ _ _ hsome]
  exact h pd hpd

/-- All dependency-mapping weights of the table are nonnegative. -/
theorem DEPENDENCY_MAPPINGS_nonneg : ∀ m ∈ DEPENDENCY_MAPPINGS, 0 ≤ m.confidence := by
  intro m hm
  fin_cases hm <;> norm_num

/-- All pattern weights of a pattern set are nonnegative. -/
def weightsNonneg (fp : FrameworkPatterns) : Prop :=
  ∀ pd ∈ fp.imports ++ fp.instantiations, 0 ≤ pd.confidence

theorem mergeFrameworkPatterns_weightsNonneg (q p : FrameworkPatterns)
    (hq : weightsNonneg q) (hp : weightsNonneg p) :
    weightsNonneg (mergeFrameworkPatterns q p) := by
  intro pd hpd
  rcases List.mem_append.mp hpd with hi | hs
  · rcases List.mem_append.mp hi with h1 | h2
    · exact hq pd (List.mem_append.mpr (Or.inl h1))
    · exact hp pd (List.mem_append.mpr (Or.inl h2))
  · rcases List.mem_append.mp hs with h1 | h2
    · exact hq pd (List.mem_append.mpr (Or.inr h1))
    · exact hp pd (List.mem_append.mpr (Or.inr h2))

theorem upsertMerge_weightsNonneg (seen : List FrameworkPatterns)
    (p : FrameworkPatterns) (hs : ∀ fp ∈ seen, weightsNonneg fp)
    (hp : weightsNonneg p) :
    ∀ fp ∈ upsertMerge seen p, weightsNonneg fp := by
  intro fp hfp
  unfold upsertMerge at hfp
  by_cases hany : seen.any (fun q => q.framework == p.framework) = true
  · rw [if_pos hany] at hfp
    rcases List.mem_map.mp hfp with ⟨q, hq, rfl⟩
    by_cases hqp : q.framework = p.framework
    · rw [if_pos hqp]
      exact mergeFrameworkPatterns_weightsNonneg q p (hs q hq) hp
    · rw [if_neg hqp]
      exact hs q hq
  · rw [if_neg hany] at hfp
    rcases List.mem_append.mp hfp with hin | hone
    · exact hs fp hin
    · rw [List.mem_singleton.mp hone]
      exact hp

theorem deduplicatePatterns_weightsNonneg (l : List FrameworkPatterns)
    (h : ∀ fp ∈ l, weightsNonneg fp) :
    ∀ fp ∈ deduplicatePatterns l, weightsNonneg fp := by
  unfold deduplicatePatterns
  have haux : ∀ (xs : List FrameworkPatterns) (acc : List FrameworkPatterns),
      (∀ fp ∈ acc, weightsNonneg fp) → (∀ fp ∈ xs, weightsNonneg fp) →
      ∀ fp ∈ xs.foldl upsertMerge acc, weightsNonneg fp := by
    intro xs
    induction xs with
    | nil => intro acc hacc _ fp hfp; exact hacc fp hfp
    | cons x rest ih =>
      intro acc hacc hall fp hfp
      rw [List.foldl_cons] at hfp
      exact ih _ (upsertMerge_weightsNonneg acc x hacc
          (hall x (List.mem_cons_self _ _)))
        (fun q hq => hall q (List.mem_cons_of_mem _ hq)) fp hfp
  exact haux l [] (by intro fp hfp; cases hfp) h

theorem getPatternsForLanguage_weightsNonneg (registry : List FrameworkPatterns)
    (language : String) (h : ∀ fp ∈ registry, weightsNonneg fp) :
    ∀ fp ∈ getPatternsForLanguage registry language, weightsNonneg fp := by
  intro fp hfp
  exact h fp (List.mem_filter.mp hfp).1

/-- The pattern sets tried for a language keep nonnegative weights. -/
theorem applicablePatterns_weightsNonneg (registry : List FrameworkPatterns)
    (language : String) (hreg : ∀ fp ∈ registry, weightsNonneg fp) :
    ∀ fp ∈ applicablePatterns registry language, weightsNonneg fp := by
  unfold applicablePatterns
  apply deduplicatePatterns_weightsNonneg
  intro fp hfp
  cases hmatch : (if language = "typescript" then some "javascript"
      else if language = "javascript" then some "typescript" else none) with
  | none =>
    rw [hmatch] at hfp
    exact getPatternsForLanguage_weightsNonneg registry language hreg fp hfp
  | some l =>
    rw [hmatch] at hfp
    rcases List.mem_append.mp hfp with h1 | h2
    · exact getPatternsForLanguage_weightsNonneg registry language hreg fp h1
    · exact getPatternsForLanguage_weightsNonneg registry l hreg fp h2

theorem detectionsFold_bounds (content filePath : String)
    (fps : List FrameworkPatterns) (acc : List FileDetection)
    (hacc : ∀ d ∈ acc, 0 ≤ d.totalConfidence ∧ d.totalConfidence ≤ 1)
    (hall : ∀ fp ∈ fps, weightsNonneg fp) :
    ∀ d ∈ fps.foldl (detectionStep content filePath) acc,
      0 ≤ d.totalConfidence ∧ d.totalConfidence ≤ 1 := by
  induction fps generalizing acc with
  | nil => intro d hd; exact hacc d hd
  | cons fp rest ih =>
    intro d hd
    rw [List.foldl_cons] at hd
    refine ih _ ?_ (fun q hq => hall q (List.mem_cons_of_mem _ hq)) d hd
    intro d' hd'
    unfold detectionStep at hd'
    by_cases hlen : 0 < (matchPatterns content filePath fp).length
    · simp only [hlen, if_true] at hd'
      rcases List.mem_append.mp hd' with hold | hnew
      · exact hacc d' hold
      · rw [List.mem_singleton.mp hnew]
        refine ⟨calculateConfidence_nonneg _ ?_, calculateConfidence_le_one _⟩
        exact matchPatterns_contrib_nonneg content filePath fp
          (hall fp (List.mem_cons_self _ _))
    · simp only [hlen, if_false] at hd'
      exact hacc d' hd'

/-- Every detection of an analysis has confidence in `[0, 1]` when the
registry's pattern weights are nonnegative. -/
theorem analyzeContent_totalConfidence_bounds (registry : List FrameworkPatterns)
    (content filePath language : String)
    (hreg : ∀ fp ∈ registry, weightsNonneg fp) :
    ∀ det ∈ (analyzeContent registry content filePath language).detections,
      0 ≤ det.totalConfidence ∧ det.totalConfidence ≤ 1 := by
  intro det hdet
  unfold analyzeContent at hdet
  by_cases hu : language = "unknown"
  · rw [if_pos hu] at hdet
    cases hdet
  · rw [if_neg hu] at hdet
    exact detectionsFold_bounds content filePath _ [] (by intro d hd; cases hd)
      (applicablePatterns_weightsNonneg registry language hreg) det hdet

/-- Every dependency evidence item copies a nonnegative weight from the
mapping table. -/
theorem analyzeDependencyFile_contrib_nonneg
    (parseDeps : String → Option (List (String × String)))
    (content filePath fileName : String) :
    ∀ e ∈ analyzeDependencyFile parseDeps content filePath fileName,
      0 ≤ e.confidenceContribution := by
  intro e he
  unfold analyzeDependencyFile at he
  by_cases h1 : fileName = "requirements.txt" ∨ fileName = "Pipfile"
  · rw [if_pos h1, foldl_pushMatch_eq_filterMap, List.nil_append] at he
    rcases List.mem_filterMap.mp he with ⟨line, _, hsome⟩
    simp only [Option.map_eq_some'] at hsome
    rcases hsome with ⟨m, hfind, rfl⟩
    exact DEPENDENCY_MAPPINGS_nonneg m (List.mem_of_find?_eq_some hfind)
  · rw [if_neg h1] at he
    by_cases h2 : fileName = "pyproject.toml"
    · rw [if_pos h2, foldl_pushMatch_eq_filterMap, List.nil_append] at he
      rcases List.mem_filterMap.mp he with ⟨dep, hdep, hsome⟩
      by_cases hcond : (dep.language = "python" ∨ dep.language = "any") ∧
          (testSubstr ("\"" ++ dep.name ++ "\"") content ∨
           testSubstr (singleQuote ++ dep.name ++ singleQuote) content ∨
           testSubstr dep.name content)
      · rw [if_pos hcond] at hsome
        cases hsome
        exact DEPENDENCY_MAPPINGS_nonneg dep hdep
      · rw [if_neg hcond] at hsome
        cases hsome
    · rw [if_neg h2] at he
      by_cases h3 : fileName = "package.json"
      · rw [if_pos h3] at he
        cases hparse : parseDeps content with
        | none => rw [hparse] at he; cases he
        | some allDeps =>
          rw [hparse] at he
          simp only at he
          rw [foldl_pushMatch_eq_filterMap, List.nil_append] at he
          rcases List.mem_filterMap.mp he with ⟨kv, _, hsome⟩
          simp only [Option.map_eq_some'] at hsome
          rcases hsome with ⟨m, hfind, rfl⟩
          exact DEPENDENCY_MAPPINGS_nonneg m (List.mem_of_find?_eq_some hfind)
      · rw [if_neg h3] at he
        cases he

/-- Confidence of every record lies in `[0, 1]`. -/
def confidenceInBounds (agents : List AgentRecord) : Prop :=
  ∀ a ∈ agents, 0 ≤ a.confidence ∧ a.confidence ≤ 1

/-- The loop invariant of the scan: record confidences in `[0, 1]`,
pairwise-distinct `Map` keys, and nonnegative pending dependency
weights. -/
def StateInv (st : ScanState) : Prop :=
  confidenceInBounds st.agentList ∧
  (st.agentList.map agentKey).Nodup ∧
  ∀ e ∈ st.dependencyEvidence, 0 ≤ e.confidenceContribution

theorem hasKey_false_iff (agents : List AgentRecord) (key : String) :
    hasKey agents key = false ↔ ∀ a ∈ agents, agentKey a ≠ key := by
  simp [hasKey, List.any_eq_false]

theorem nodup_keys_append (agents : List AgentRecord) (rec : AgentRecord)
    (hn : (agents.map agentKey).Nodup)
    (hk : hasKey agents (agentKey rec) = false) :
    ((agents ++ [rec]).map agentKey).Nodup := by
  rw [List.map_append, List.map_singleton]
  rw [List.nodup_append]
  refine ⟨hn, List.nodup_singleton _, ?_⟩
  intro k hk1 hk2
  rw [List.mem_singleton] at hk2
  rcases List.mem_map.mp hk1 with ⟨a, ha, rfl⟩
  exact (hasKey_false_iff agents (agentKey rec)).mp hk a ha (hk2 ▸ rfl)

theorem insertDetection_fold_inv (env : ScanEnv) (threshold : ℚ)
    (file : ScanFile) (language : String) :
    ∀ (dets : List FileDetection) (st : ScanState),
      (∀ d ∈ dets, 0 ≤ d.totalConfidence ∧ d.totalConfidence ≤ 1) →
      StateInv st →
      StateInv (dets.foldl (insertDetection env threshold file language) st) := by
  intro dets
  induction dets with
  | nil => intro st _ hInv; exact hInv
  | cons d rest ih =>
    intro st hds hInv
    rw [List.foldl_cons]
    refine ih _ (fun x hx => hds x (List.mem_cons_of_mem _ hx)) ?_
    unfold insertDetection
    by_cases hth : threshold ≤ d.totalConfidence
    · rw [if_pos hth]
      by_cases hkey : hasKey st.agentList (d.framework ++ ":" ++ file.path)
      · rw [if_pos hkey]; exact hInv
      · rw [if_neg hkey]
        obtain ⟨hb, hn, hd⟩ := hInv
        refine ⟨?_, ?_, hd⟩
        · intro a ha
          rcases List.mem_append.mp ha with hold | hnew
          · exact hb a hold
          · rw [List.mem_singleton.mp hnew]
            exact hds d (List.mem_cons_self _ _)
        · exact nodup_keys_append _ _ hn (by simpa using hkey)
    · rw [if_neg hth]; exact hInv

theorem processSourceDetections_inv (env : ScanEnv) (threshold : ℚ)
    (scanPath : String) (file : ScanFile) (st : ScanState)
    (hreg : ∀ fp ∈ env.registry, weightsNonneg fp) (hInv : StateInv st) :
    StateInv (processSourceDetections env threshold scanPath file st) := by
  unfold processSourceDetections
  exact insertDetection_fold_inv env threshold file _ _ st
    (analyzeContent_totalConfidence_bounds env.registry file.content
      (joinPath scanPath file.path) (detectLanguage file.ext) hreg) hInv

theorem processConfigFile_inv (st : ScanState) (file : ScanFile)
    (hInv : StateInv st) : StateInv (processConfigFile st file) := by
  unfold processConfigFile
  by_cases hname : file.name = "crewai.yaml" ∨ file.name = "crewai.yml"
  · rw [if_pos hname]
    by_cases hkey : hasKey st.agentList ("crewai:" ++ file.path)
    · rw [if_pos hkey]; exact hInv
    · rw [if_neg hkey]
      obtain ⟨hb, hn, hd⟩ := hInv
      refine ⟨?_, ?_, hd⟩
      · intro a ha
        rcases List.mem_append.mp ha with hold | hnew
        · exact hb a hold
        · rw [List.mem_singleton.mp hnew]
          constructor <;> norm_num
      · exact nodup_keys_append _ _ hn (by simpa using hkey)
  · rw [if_neg hname]; exact hInv

theorem processFile_inv (env : ScanEnv) (threshold : ℚ) (scanPath : String)
    (st : ScanState) (file : ScanFile)
    (hreg : ∀ fp ∈ env.registry, weightsNonneg fp) (hInv : StateInv st) :
    StateInv (processFile env threshold scanPath st file) := by
  unfold processFile
  by_cases hsize : MAX_FILE_SIZE < file.size
  · rw [if_pos hsize]; exact hInv
  · rw [if_neg hsize]
    simp only
    have h1 : StateInv (if (lookupLanguage file.ext).isSome
        then processSourceDetections env threshold scanPath file st else st) := by
      by_cases hl : (lookupLanguage file.ext).isSome
      · rw [if_pos hl]
        exact processSourceDetections_inv env threshold scanPath file st hreg hInv
      · rw [if_neg hl]; exact hInv
    set st1 := if (lookupLanguage file.ext).isSome
      then processSourceDetections env threshold scanPath file st else st with hst1
    have h2 : StateInv (if file.name ∈ DEPENDENCY_FILES then
        { st1 with dependencyEvidence := st1.dependencyEvidence ++
            analyzeDependencyFile env.parsePackageJsonDeps file.content file.path file.name }
      else st1) := by
      by_cases hdf : file.name ∈ DEPENDENCY_FILES
      · rw [if_pos hdf]
        obtain ⟨hb, hn, hd⟩ := h1
        refine ⟨hb, hn, ?_⟩
        intro e he
        rcases List.mem_append.mp he with hold | hnew
        · exact hd e hold
        · exact analyzeDependencyFile_contrib_nonneg _ _ _ _ e hnew
      · rw [if_neg hdf]; exact h1
    set st2 := if file.name ∈ DEPENDENCY_FILES then
        { st1 with dependencyEvidence := st1.dependencyEvidence ++
            analyzeDependencyFile env.parsePackageJsonDeps file.content file.path file.name }
      else st1 with hst2
    have h3 : StateInv (if file.name = ".env" ∨ jsStartsWith ".env." file.name then
        { st2 with envEvidence := st2.envEvidence ++ analyzeEnvFile file.content file.path }
      else st2) := by
      by_cases henv : file.name = ".env" ∨ jsStartsWith ".env." file.name
      · rw [if_pos henv]
        exact ⟨h2.1, h2.2.1, h2.2.2⟩
      · rw [if_neg henv]; exact h2
    set st3 := if file.name = ".env" ∨ jsStartsWith ".env." file.name then
        { st2 with envEvidence := st2.envEvidence ++ analyzeEnvFile file.content file.path }
      else st2 with hst3
    by_cases hcfg : file.name ∈ getAgentConfigFileNames env.registry
    · rw [if_pos hcfg]
      exact processConfigFile_inv st3 file h3
    · rw [if_neg hcfg]; exact h3

theorem foldl_processFile_inv (env : ScanEnv) (threshold : ℚ)
    (scanPath : String) (files : List ScanFile) (st : ScanState)
    (hreg : ∀ fp ∈ env.registry, weightsNonneg fp) (hInv : StateInv st) :
    StateInv (files.foldl (processFile env threshold scanPath) st) := by
  induction files generalizing st with
  | nil => exact hInv
  | cons f rest ih =>
    rw [List.foldl_cons]
    exact ih _ (processFile_inv env threshold scanPath st f hreg hInv)

/-- Mapping a key-preserving function leaves the key list unchanged. -/
theorem map_agentKey_of_preserving (f : AgentRecord → AgentRecord)
    (hf : ∀ a, agentKey (f a) = agentKey a) (agents : List AgentRecord) :
    (agents.map f).map agentKey = agents.map agentKey := by
  rw [List.map_map]
  exact List.map_congr_left (fun a _ => hf a)

theorem enrichWithDependencies_bounds (agents : List AgentRecord)
    (deps : List DetectionEvidence) (ha : confidenceInBounds agents)
    (hd : ∀ e ∈ deps, 0 ≤ e.confidenceContribution) :
    confidenceInBounds (enrichWithDependencies agents deps) := by
  induction deps generalizing agents with
  | nil => exact ha
  | cons dep rest ih =>
    unfold enrichWithDependencies
    rw [List.foldl_cons]
    have hstep : confidenceInBounds
        (match DEPENDENCY_MAPPINGS.find? (fun d => d.name == dep.pattern) with
          | none => agents
          | some mapping =>
            agents.map (fun agent =>
              if agent.framework = mapping.framework then
                if agent.evidence.any (fun e =>
                    decide (e.type = EvidenceType.dependency ∧ e.pattern = dep.pattern)) then
                  agent
                else
                  { agent with
                    evidence := agent.evidence ++ [dep]
                    confidence := min 1 (agent.confidence + dep.confidenceContribution * (1/2)) }
              else agent)) := by
      cases hfind : DEPENDENCY_MAPPINGS.find? (fun d => d.name == dep.pattern) with
      | none => exact ha
      | some mapping =>
        intro a' ha'
        rcases List.mem_map.mp ha' with ⟨a, haa, rfl⟩
        by_cases h1 : a.framework = mapping.framework
        · by_cases h2 : a.evidence.any (fun e =>
              decide (e.type = EvidenceType.dependency ∧ e.pattern = dep.pattern))
          · simp only [h1, if_true, h2]
            exact ha a haa
          · simp only [h1, if_true, h2, Bool.false_eq_true, if_false]
            constructor
            · exact le_min (by norm_num)
                (add_nonneg (ha a haa).1
                  (mul_nonneg (hd dep (List.mem_cons_self _ _)) (by norm_num)))
            · exact min_le_left _ _
        · simp only [h1, if_false]
          exact ha a haa
    exact ih _ hstep (fun e he => hd e (List.mem_cons_of_mem _ he))

theorem enrichWithDependencies_keys (agents : List AgentRecord)
    (deps : List DetectionEvidence) :
    (enrichWithDependencies agents deps).map agentKey = agents.map agentKey := by
  induction deps generalizing agents with
  | nil => rfl
  | cons dep rest ih =>
    unfold enrichWithDependencies
    rw [List.foldl_cons]
    rw [show (List.foldl _ _ rest : List AgentRecord) =
      enrichWithDependencies _ rest from rfl]
    rw [ih]
    cases hfind : DEPENDENCY_MAPPINGS.find? (fun d => d.name == dep.pattern) with
    | none => rfl
    | some mapping =>
      apply map_agentKey_of_preserving
      intro a
      by_cases h1 : a.framework = mapping.framework
      · by_cases h2 : ∃ x ∈ a.evidence,
            x.type = EvidenceType.dependency ∧ x.pattern = dep.pattern
        · simp [h1, h2, agentKey]
        · simp [h1, h2, agentKey]
      · simp [h1]

theorem enrichWithEnvVars_bounds (agents : List AgentRecord)
    (envs : List DetectionEvidence) (ha : confidenceInBounds agents) :
    confidenceInBounds (enrichWithEnvVars agents envs) := by
  induction envs generalizing agents with
  | nil => exact ha
  | cons env rest ih =>
    unfold enrichWithEnvVars
    rw [List.foldl_cons]
    have hstep : confidenceInBounds (agents.map (fun agent =>
        if agent.evidence.any (fun e =>
            decide (e.type = EvidenceType.env_var ∧ e.pattern = env.pattern)) then
          agent
        else
          { agent with
            evidence := agent.evidence ++ [env]
            confidence := min 1 (agent.confidence + 1/20) })) := by
      intro a' ha'
      rcases List.mem_map.mp ha' with ⟨a, haa, rfl⟩
      by_cases h2 : a.evidence.any (fun e =>
          decide (e.type = EvidenceType.env_var ∧ e.pattern = env.pattern))
      · simp only [h2, if_true]
        exact ha a haa
      · simp only [h2, Bool.false_eq_true, if_false]
        constructor
        · exact le_min (by norm_num) (add_nonneg (ha a haa).1 (by norm_num))
        · exact min_le_left _ _
    exact ih _ hstep

theorem enrichWithEnvVars_keys (agents : List AgentRecord)
    (envs : List DetectionEvidence) :
    (enrichWithEnvVars agents envs).map agentKey = agents.map agentKey := by
  induction envs generalizing agents with
  | nil => rfl
  | cons env rest ih =>
    unfold enrichWithEnvVars
    rw [List.foldl_cons]
    rw [show (List.foldl _ _ rest : List AgentRecord) =
      enrichWithEnvVars _ rest from rfl]
    rw [ih]
    apply map_agentKey_of_preserving
    intro a
    by_cases h2 : ∃ x ∈ a.evidence,
        x.type = EvidenceType.env_var ∧ x.pattern = env.pattern
    · simp [h2, agentKey]
    · simp [h2, agentKey]

/-- **C3.** In every scan result (whenever the registry's pattern weights
are nonnegative, as all the shipped tables are), every agent's confidence
lies in `[0, 1]` — in particular the dependency and environment-variable
boosts are capped at 1.0 — and no two agents share the same
(framework, file path) pair. -/
theorem scanLocal_confidence_bounds_and_keys_unique (env : ScanEnv)
    (options : ScanOptions) (discoveredFiles : List ScanFile)
    (hreg : ∀ fp ∈ env.registry, weightsNonneg fp) :
    (∀ a ∈ (scanLocal env options discoveredFiles).agents,
      0 ≤ a.confidence ∧ a.confidence ≤ 1) ∧
    (scanLocal env options discoveredFiles).agents.Pairwise
      (fun a b => (a.framework, a.location.filePath) ≠
        (b.framework, b.location.filePath)) := by
  have hfst : ∀ (rules : List (AgentRecord → Option RiskFlag)) (ags : List AgentRecord),
      (enrichWithRisks rules ags).1 =
        ags.map (fun a => { a with risks := some (evaluateAgentRisks rules a) }) :=
    fun _ _ => rfl
  unfold scanLocal
  simp only [hfst]
  set st := (discoveredFiles.take (options.maxFiles.getD 10000)).foldl
    (processFile env (options.confidenceThreshold.getD CONFIDENCE_THRESHOLDS_REPORT)
      (options.path.getD ""))
    ⟨[], [], [], 0⟩ with hst
  have hInv : StateInv st := by
    apply foldl_processFile_inv _ _ _ _ _ hreg
    refine ⟨?_, ?_, ?_⟩
    · intro a ha; cases ha
    · simp
    · intro e he; cases he
  obtain ⟨hb0, hn0, hd0⟩ := hInv
  -- Bounds and keys through the two enrichment folds.
  have hb1 := enrichWithDependencies_bounds st.agentList st.dependencyEvidence hb0 hd0
  have hk1 : (enrichWithDependencies st.agentList st.dependencyEvidence).map agentKey =
      st.agentList.map agentKey := enrichWithDependencies_keys _ _
  have hb2 := enrichWithEnvVars_bounds _ st.envEvidence hb1
  have hk2 : (enrichWithEnvVars (enrichWithDependencies st.agentList st.dependencyEvidence)
      st.envEvidence).map agentKey = st.agentList.map agentKey := by
    rw [enrichWithEnvVars_keys, hk1]
  -- Through the sort.
  set sorted := sortByConfidenceDesc
    (enrichWithEnvVars (enrichWithDependencies st.agentList st.dependencyEvidence)
      st.envEvidence) with hsorted
  have hperm := sortByConfidenceDesc_perm
    (enrichWithEnvVars (enrichWithDependencies st.agentList st.dependencyEvidence)
      st.envEvidence)
  have hb3 : confidenceInBounds sorted := by
    intro a ha
    exact hb2 a (hperm.mem_iff.mp ha)
  have hn3 : (sorted.map agentKey).Nodup := by
    have : List.Perm (sorted.map agentKey) (st.agentList.map agentKey) := by
      rw [← hk2]
      exact hperm.map agentKey
    exact this.nodup_iff.mpr hn0
  -- Through git blame.
  set blamed := enrichWithGitBlame env sorted with hblamed
  have hbfun : ∀ (l : List AgentRecord), confidenceInBounds l →
      confidenceInBounds (enrichWithGitBlame env l) := by
    intro l hl
    unfold enrichWithGitBlame
    by_cases hrepo : env.isRepo = true
    · rw [if_pos hrepo]
      intro a' ha'
      rcases List.mem_map.mp ha' with ⟨a, haa, rfl⟩
      exact hl a haa
    · rw [if_neg hrepo]; exact hl
  have hb4 : confidenceInBounds blamed := hbfun sorted hb3
  have hn4 : (blamed.map agentKey).Nodup := by
    rw [hblamed]
    unfold enrichWithGitBlame
    by_cases hrepo : env.isRepo = true
    · rw [if_pos hrepo]
      rw [map_agentKey_of_preserving
        (fun agent =>
          let b := env.blame agent.location.filePath
          { agent with metadata :=
              { agent.metadata with owner := b.owner, lastModified := b.lastModified } })
        (fun a => rfl)]
      exact hn3
    · rw [if_neg hrepo]; exact hn3
  -- Through the risk write-back.
  constructor
  · intro a ha
    rcases List.mem_map.mp ha with ⟨b, hbmem, rfl⟩
    exact hb4 b hbmem
  · have hn5 : ((blamed.map (fun a =>
        { a with risks := some (evaluateAgentRisks env.riskRules a) })).map agentKey).Nodup := by
      rw [map_agentKey_of_preserving
        (fun a => { a with risks := some (evaluateAgentRisks env.riskRules a) })
        (fun a => rfl)]
      exact hn4
    have hp1 : (blamed.map (fun a =>
        { a with risks := some (evaluateAgentRisks env.riskRules a) })).Pairwise
        (fun a b => agentKey a ≠ agentKey b) := List.pairwise_map.mp hn5
    refine hp1.imp ?_
    intro a b hk heq
    apply hk
    have h1 : a.framework = b.framework := congrArg Prod.fst heq
    have h2 : a.location.filePath = b.location.filePath := congrArg Prod.snd heq
    rw [agentKey, agentKey, h1, h2]

/-- Witness for C3 at a concrete environment and tree. -/
theorem scanLocal_confidence_bounds_and_keys_unique_witness :
    (∀ a ∈ (scanLocal emptyScanEnv {} []).agents,
      0 ≤ a.confidence ∧ a.confidence ≤ 1) ∧
    (scanLocal emptyScanEnv {} []).agents.Pairwise
      (fun a b => (a.framework, a.location.filePath) ≠
        (b.framework, b.location.filePath)) :=
  scanLocal_confidence_bounds_and_keys_unique emptyScanEnv {} []
    (fun fp hfp => absurd hfp (List.not_mem_nil fp))

/-- The key set of an agent list. -/
def agentKeySet (agents : List AgentRecord) : Finset String :=
  (agents.map agentKey).toFinset

theorem hasKey_true_iff (agents : List AgentRecord) (key : String) :
    hasKey agents key = true ↔ key ∈ agents.map agentKey := by
  simp only [hasKey, List.any_eq_true, beq_iff_eq, List.mem_map]

theorem agentKeySet_append_one (agents : List AgentRecord) (rec : AgentRecord) :
    agentKeySet (agents ++ [rec]) = agentKeySet agents ∪ {agentKey rec} := by
  unfold agentKeySet
  rw [List.map_append, List.map_singleton, List.toFinset_append]
  rfl

/-- The keys that the source branch inserts at threshold `T`. -/
def detectionKeys (T : ℚ) (dets : List FileDetection) (path : String) : List String :=
  (dets.filter (fun d => decide (T ≤ d.totalConfidence))).map
    (fun d => d.framework ++ ":" ++ path)

theorem processSourceDetections_keyset (env : ScanEnv) (T : ℚ)
    (scanPath : String) (file : ScanFile) (st : ScanState) :
    agentKeySet (processSourceDetections env T scanPath file st).agentList =
      agentKeySet st.agentList ∪
        (detectionKeys T (analyzeContent env.registry file.content
          (joinPath scanPath file.path) (detectLanguage file.ext)).detections
          file.path).toFinset := by
  unfold processSourceDetections
  generalize analyzeContent env.registry file.content
    (joinPath scanPath file.path) (detectLanguage file.ext) = result
  have haux : ∀ (dets : List FileDetection) (st : ScanState),
      agentKeySet (dets.foldl (insertDetection env T file result.language) st).agentList =
      agentKeySet st.agentList ∪ (detectionKeys T dets file.path).toFinset := by
    intro dets
    induction dets with
    | nil => intro st; simp [detectionKeys]
    | cons d rest ih =>
      intro st
      rw [List.foldl_cons, ih]
      unfold insertDetection
      by_cases hth : T ≤ d.totalConfidence
      · have hfilter : detectionKeys T (d :: rest) file.path =
            (d.framework ++ ":" ++ file.path) :: detectionKeys T rest file.path := by
          simp [detectionKeys, List.filter_cons, hth]
        rw [if_pos hth, hfilter]
        by_cases hkey : hasKey st.agentList (d.framework ++ ":" ++ file.path)
        · rw [if_pos hkey]
          have hmem : (d.framework ++ ":" ++ file.path) ∈ agentKeySet st.agentList := by
            unfold agentKeySet
            rw [List.mem_toFinset]
            exact (hasKey_true_iff _ _).mp hkey
          rw [List.toFinset_cons, Finset.union_insert,
            Finset.insert_eq_self.mpr (Finset.mem_union_left _ hmem)]
        · rw [if_neg hkey]
          rw [show ({ st with
                agentList := st.agentList ++
                  [{ id := "ag_" ++ toString st.nextId
                     name := env.extractName file.path (some file.content)
                     framework := d.framework
                     confidence := d.totalConfidence
                     location := { filePath := file.path }
                     metadata := { language := result.language, entryPoint := some file.path }
                     evidence := d.evidence }]
                nextId := st.nextId + 1 } : ScanState).agentList =
            st.agentList ++
              [{ id := "ag_" ++ toString st.nextId
                 name := env.extractName file.path (some file.content)
                 framework := d.framework
                 confidence := d.totalConfidence
                 location := { filePath := file.path }
                 metadata := { language := result.language, entryPoint := some file.path }
                 evidence := d.evidence }] from rfl]
          rw [agentKeySet_append_one]
          have hkeyrec : agentKey
              { id := "ag_" ++ toString st.nextId
                name := env.extractName file.path (some file.content)
                framework := d.framework
                confidence := d.totalConfidence
                location := { filePath := file.path }
                metadata := { language := result.language, entryPoint := some file.path }
                risks := none
                evidence := d.evidence } = d.framework ++ ":" ++ file.path := rfl
          rw [hkeyrec, List.toFinset_cons, Finset.union_assoc, ← Finset.insert_eq,
            Finset.union_insert]
      · rw [if_neg hth]
        have hfilter : detectionKeys T (d :: rest) file.path =
            detectionKeys T rest file.path := by
          simp [detectionKeys, List.filter_cons, hth]
        rw [hfilter]
  exact haux result.detections st

theorem processConfigFile_keyset (st : ScanState) (file : ScanFile) :
    agentKeySet (processConfigFile st file).agentList =
      agentKeySet st.agentList ∪
        (if file.name = "crewai.yaml" ∨ file.name = "crewai.yml"
          then {"crewai:" ++ file.path} else ∅) := by
  unfold processConfigFile
  by_cases hname : file.name = "crewai.yaml" ∨ file.name = "crewai.yml"
  · rw [if_pos hname, if_pos hname]
    by_cases hkey : hasKey st.agentList ("crewai:" ++ file.path)
    · rw [if_pos hkey]
      have hmem : ("crewai:" ++ file.path) ∈ agentKeySet st.agentList := by
        unfold agentKeySet
        rw [List.mem_toFinset]
        exact (hasKey_true_iff _ _).mp hkey
      rw [Finset.union_comm, ← Finset.insert_eq,
        Finset.insert_eq_self.mpr hmem]
    · rw [if_neg hkey, agentKeySet_append_one]
      rfl
  · rw [if_neg hname, if_neg hname, Finset.union_empty]

/-- The keys one file contributes to the agent map at threshold `T`. -/
def extraKeys (env : ScanEnv) (T : ℚ) (scanPath : String) (f : ScanFile) :
    Finset String :=
  if MAX_FILE_SIZE < f.size then ∅ else
    (if (lookupLanguage f.ext).isSome then
      (detectionKeys T (analyzeContent env.registry f.content
        (joinPath scanPath f.path) (detectLanguage f.ext)).detections f.path).toFinset
    else ∅) ∪
    (if f.name ∈ getAgentConfigFileNames env.registry then
      (if f.name = "crewai.yaml" ∨ f.name = "crewai.yml"
        then {"crewai:" ++ f.path} else ∅)
    else ∅)

theorem processFile_keyset (env : ScanEnv) (T : ℚ) (scanPath : String)
    (st : ScanState) (f : ScanFile) :
    agentKeySet (processFile env T scanPath st f).agentList =
      agentKeySet st.agentList ∪ extraKeys env T scanPath f := by
  unfold processFile extraKeys
  by_cases hsize : MAX_FILE_SIZE < f.size
  · rw [if_pos hsize, if_pos hsize, Finset.union_empty]
  · rw [if_neg hsize, if_neg hsize]
    simp only
    set st1 := if (lookupLanguage f.ext).isSome
      then processSourceDetections env T scanPath f st else st with hst1
    have h1 : agentKeySet st1.agentList =
        agentKeySet st.agentList ∪
          (if (lookupLanguage f.ext).isSome then
            (detectionKeys T (analyzeContent env.registry f.content
              (joinPath scanPath f.path) (detectLanguage f.ext)).detections f.path).toFinset
          else ∅) := by
      rw [hst1]
      by_cases hl : (lookupLanguage f.ext).isSome
      · rw [if_pos hl, if_pos hl]
        exact processSourceDetections_keyset env T scanPath f st
      · rw [if_neg hl, if_neg hl, Finset.union_empty]
    set st2 := if f.name ∈ DEPENDENCY_FILES then
        { st1 with dependencyEvidence := st1.dependencyEvidence ++
            analyzeDependencyFile env.parsePackageJsonDeps f.content f.path f.name }
      else st1 with hst2
    have h2 : st2.agentList = st1.agentList := by
      rw [hst2]
      by_cases hdf : f.name ∈ DEPENDENCY_FILES
      · rw [if_pos hdf]
      · rw [if_neg hdf]
    set st3 := if f.name = ".env" ∨ jsStartsWith ".env." f.name then
        { st2 with envEvidence := st2.envEvidence ++ analyzeEnvFile f.content f.path }
      else st2 with hst3
    have h3 : st3.agentList = st2.agentList := by
      rw [hst3]
      by_cases henv : f.name = ".env" ∨ jsStartsWith ".env." f.name
      · rw [if_pos henv]
      · rw [if_neg henv]
    by_cases hcfg : f.name ∈ getAgentConfigFileNames env.registry
    · rw [if_pos hcfg, if_pos hcfg]
      rw [processConfigFile_keyset]
      unfold agentKeySet at h1 h2 h3 ⊢
      rw [h3, h2, h1, Finset.union_assoc]
    · rw [if_neg hcfg, if_neg hcfg]
      unfold agentKeySet at h1 h2 h3 ⊢
      rw [h3, h2, h1, Finset.union_empty]

theorem detectionKeys_antitone (T1 T2 : ℚ) (h : T1 ≤ T2)
    (dets : List FileDetection) (path : String) :
    (detectionKeys T2 dets path).toFinset ⊆ (detectionKeys T1 dets path).toFinset := by
  intro x hx
  rw [List.mem_toFinset] at hx ⊢
  unfold detectionKeys at hx ⊢
  rcases List.mem_map.mp hx with ⟨d, hd, rfl⟩
  rcases List.mem_filter.mp hd with ⟨hdm, hdt⟩
  apply List.mem_map.mpr
  refine ⟨d, List.mem_filter.mpr ⟨hdm, ?_⟩, rfl⟩
  rw [decide_eq_true_eq] at hdt ⊢
  exact le_trans h hdt

theorem extraKeys_antitone (env : ScanEnv) (T1 T2 : ℚ) (h : T1 ≤ T2)
    (scanPath : String) (f : ScanFile) :
    extraKeys env T2 scanPath f ⊆ extraKeys env T1 scanPath f := by
  unfold extraKeys
  by_cases hsize : MAX_FILE_SIZE < f.size
  · rw [if_pos hsize, if_pos hsize]
  · rw [if_neg hsize, if_neg hsize]
    apply Finset.union_subset_union _ le_rfl
    by_cases hl : (lookupLanguage f.ext).isSome
    · rw [if_pos hl, if_pos hl]
      exact detectionKeys_antitone T1 T2 h _ _
    · rw [if_neg hl, if_neg hl]

theorem processSourceDetections_nodupKeys (env : ScanEnv) (T : ℚ)
    (scanPath : String) (file : ScanFile) (st : ScanState)
    (hn : (st.agentList.map agentKey).Nodup) :
    ((processSourceDetections env T scanPath file st).agentList.map agentKey).Nodup := by
  unfold processSourceDetections
  generalize analyzeContent env.registry file.content
    (joinPath scanPath file.path) (detectLanguage file.ext) = result
  have haux : ∀ (dets : List FileDetection) (st : ScanState),
      (st.agentList.map agentKey).Nodup →
      ((dets.foldl (insertDetection env T file result.language)
        st).agentList.map agentKey).Nodup := by
    intro dets
    induction dets with
    | nil => intro st h; exact h
    | cons d rest ih =>
      intro st h
      rw [List.foldl_cons]
      apply ih
      unfold insertDetection
      by_cases hth : T ≤ d.totalConfidence
      · rw [if_pos hth]
        by_cases hkey : hasKey st.agentList (d.framework ++ ":" ++ file.path)
        · rw [if_pos hkey]; exact h
        · rw [if_neg hkey]
          exact nodup_keys_append _ _ h (by simpa using hkey)
      · rw [if_neg hth]; exact h
  exact haux result.detections st hn

theorem processConfigFile_nodupKeys (st : ScanState) (file : ScanFile)
    (hn : (st.agentList.map agentKey).Nodup) :
    ((processConfigFile st file).agentList.map agentKey).Nodup := by
  unfold processConfigFile
  by_cases hname : file.name = "crewai.yaml" ∨ file.name = "crewai.yml"
  · rw [if_pos hname]
    by_cases hkey : hasKey st.agentList ("crewai:" ++ file.path)
    · rw [if_pos hkey]; exact hn
    · rw [if_neg hkey]
      exact nodup_keys_append _ _ hn (by simpa using hkey)
  · rw [if_neg hname]; exact hn

theorem processFile_nodupKeys (env : ScanEnv) (T : ℚ) (scanPath : String)
    (st : ScanState) (f : ScanFile)
    (hn : (st.agentList.map agentKey).Nodup) :
    ((processFile env T scanPath st f).agentList.map agentKey).Nodup := by
  unfold processFile
  by_cases hsize : MAX_FILE_SIZE < f.size
  · rw [if_pos hsize]; exact hn
  · rw [if_neg hsize]
    simp only
    set st1 := if (lookupLanguage f.ext).isSome
      then processSourceDetections env T scanPath f st else st with hst1
    have h1 : (st1.agentList.map agentKey).Nodup := by
      rw [hst1]
      by_cases hl : (lookupLanguage f.ext).isSome
      · rw [if_pos hl]
        exact processSourceDetections_nodupKeys env T scanPath f st hn
      · rw [if_neg hl]; exact hn
    set st2 := if f.name ∈ DEPENDENCY_FILES then
        { st1 with dependencyEvidence := st1.dependencyEvidence ++
            analyzeDependencyFile env.parsePackageJsonDeps f.content f.path f.name }
      else st1 with hst2
    have h2 : st2.agentList = st1.agentList := by
      rw [hst2]
      by_cases hdf : f.name ∈ DEPENDENCY_FILES
      · rw [if_pos hdf]
      · rw [if_neg hdf]
    set st3 := if f.name = ".env" ∨ jsStartsWith ".env." f.name then
        { st2 with envEvidence := st2.envEvidence ++ analyzeEnvFile f.content f.path }
      else st2 with hst3
    have h3 : st3.agentList = st2.agentList := by
      rw [hst3]
      by_cases henv : f.name = ".env" ∨ jsStartsWith ".env." f.name
      · rw [if_pos henv]
      · rw [if_neg henv]
    by_cases hcfg : f.name ∈ getAgentConfigFileNames env.registry
    · rw [if_pos hcfg]
      apply processConfigFile_nodupKeys
      rw [h3, h2]; exact h1
    · rw [if_neg hcfg]
      rw [h3, h2]; exact h1

theorem foldl_processFile_nodupKeys (env : ScanEnv) (T : ℚ)
    (scanPath : String) (files : List ScanFile) (st : ScanState)
    (hn : (st.agentList.map agentKey).Nodup) :
    (((files.foldl (processFile env T scanPath) st).agentList).map agentKey).Nodup := by
  induction files generalizing st with
  | nil => exact hn
  | cons f rest ih =>
    rw [List.foldl_cons]
    exact ih _ (processFile_nodupKeys env T scanPath st f hn)

theorem foldl_processFile_keyset_subset (env : ScanEnv) (scanPath : String)
    (T1 T2 : ℚ) (h12 : T1 ≤ T2) (files : List ScanFile) (st1 st2 : ScanState)
    (hsub : agentKeySet st2.agentList ⊆ agentKeySet st1.agentList) :
    agentKeySet ((files.foldl (processFile env T2 scanPath) st2).agentList) ⊆
      agentKeySet ((files.foldl (processFile env T1 scanPath) st1).agentList) := by
  induction files generalizing st1 st2 with
  | nil => exact hsub
  | cons f rest ih =>
    rw [List.foldl_cons, List.foldl_cons]
    apply ih
    rw [processFile_keyset, processFile_keyset]
    exact Finset.union_subset_union hsub (extraKeys_antitone env T1 T2 h12 scanPath f)

/-- Enrichment and result assembly keep the number of agents. -/
theorem enrichWithDependencies_length (agents : List AgentRecord)
    (deps : List DetectionEvidence) :
    (enrichWithDependencies agents deps).length = agents.length := by
  have h := congrArg List.length (enrichWithDependencies_keys agents deps)
  simpa using h

theorem enrichWithEnvVars_length (agents : List AgentRecord)
    (envs : List DetectionEvidence) :
    (enrichWithEnvVars agents envs).length = agents.length := by
  have h := congrArg List.length (enrichWithEnvVars_keys agents envs)
  simpa using h

theorem scanLocal_agents_length (env : ScanEnv) (options : ScanOptions)
    (discoveredFiles : List ScanFile) :
    (scanLocal env options discoveredFiles).agents.length =
      ((discoveredFiles.take (options.maxFiles.getD 10000)).foldl
        (processFile env (options.confidenceThreshold.getD CONFIDENCE_THRESHOLDS_REPORT)
          (options.path.getD ""))
        ⟨[], [], [], 0⟩).agentList.length := by
  have hfst : ∀ (rules : List (AgentRecord → Option RiskFlag)) (ags : List AgentRecord),
      (enrichWithRisks rules ags).1 =
        ags.map (fun a => { a with risks := some (evaluateAgentRisks rules a) }) :=
    fun _ _ => rfl
  unfold scanLocal
  simp only [hfst, List.length_map]
  rw [show ∀ l, (enrichWithGitBlame env l).length = l.length from ?_]
  · rw [(sortByConfidenceDesc_perm _).length_eq, enrichWithEnvVars_length,
      enrichWithDependencies_length]
  · intro l
    unfold enrichWithGitBlame
    by_cases hrepo : env.isRepo = true
    · rw [if_pos hrepo, List.length_map]
    · rw [if_neg hrepo]

/-- **C5.** For a fixed environment and input tree, raising the confidence
threshold never increases the number of agents in the scan result: for
thresholds `T1 < T2`, the count at `T1` is at least the count at `T2`. -/
theorem scanLocal_threshold_antitone (env : ScanEnv) (options : ScanOptions)
    (discoveredFiles : List ScanFile) (T1 T2 : ℚ) (h12 : T1 < T2) :
    (scanLocal env { options with confidenceThreshold := some T2 }
      discoveredFiles).agents.length ≤
    (scanLocal env { options with confidenceThreshold := some T1 }
      discoveredFiles).agents.length := by
  rw [scanLocal_agents_length, scanLocal_agents_length]
  simp only [Option.getD_some]
  set files := discoveredFiles.take (options.maxFiles.getD 10000) with hfiles
  set scanPath := options.path.getD "" with hscanPath
  set stA := files.foldl (processFile env T1 scanPath) ⟨[], [], [], 0⟩ with hstA
  set stB := files.foldl (processFile env T2 scanPath) ⟨[], [], [], 0⟩ with hstB
  have hnA : (stA.agentList.map agentKey).Nodup :=
    foldl_processFile_nodupKeys env T1 scanPath files ⟨[], [], [], 0⟩ (by simp)
  have hnB : (stB.agentList.map agentKey).Nodup :=
    foldl_processFile_nodupKeys env T2 scanPath files ⟨[], [], [], 0⟩ (by simp)
  have hsub : agentKeySet stB.agentList ⊆ agentKeySet stA.agentList :=
    foldl_processFile_keyset_subset env scanPath T1 T2 (le_of_lt h12) files _ _
      (by simp [agentKeySet])
  have hcardA : (agentKeySet stA.agentList).card = stA.agentList.length := by
    unfold agentKeySet
    rw [List.toFinset_card_of_nodup hnA, List.length_map]
  have hcardB : (agentKeySet stB.agentList).card = stB.agentList.length := by
    unfold agentKeySet
    rw [List.toFinset_card_of_nodup hnB, List.length_map]
  rw [← hcardA, ← hcardB]
  exact Finset.card_le_card hsub

/-- Witness for C5 at concrete thresholds on a concrete tree. -/
theorem scanLocal_threshold_antitone_witness :
    (scanLocal emptyScanEnv { ({} : ScanOptions) with confidenceThreshold := some 1 }
      []).agents.length ≤
    (scanLocal emptyScanEnv { ({} : ScanOptions) with confidenceThreshold := some 0 }
      []).agents.length :=
  scanLocal_threshold_antitone emptyScanEnv {} [] 0 1 zero_lt_one

/-- A file is source/dependency/env-inert: not a recognized source
extension, not a dependency manifest, not an env file. -/
def auxInert (f : ScanFile) : Prop :=
  (lookupLanguage f.ext).isSome = false ∧ f.name ∉ DEPENDENCY_FILES ∧
    ¬(f.name = ".env" ∨ jsStartsWith ".env." f.name)

instance (f : ScanFile) : Decidable (auxInert f) := by
  unfold auxInert
  infer_instance

/-- A file that actually triggers the crewai config-record branch. -/
def crewaiEffective (env : ScanEnv) (f : ScanFile) : Bool :=
  decide (¬ MAX_FILE_SIZE < f.size ∧
    (f.name = "crewai.yaml" ∨ f.name = "crewai.yml") ∧
    f.name ∈ getAgentConfigFileNames env.registry)

/-- The record created for a standalone crewai config file. -/
def crewaiRecord (f : ScanFile) (n : Nat) : AgentRecord :=
  { id := "ag_" ++ toString n
    name := "CrewAI Agent"
    framework := "crewai"
    confidence := 7/10
    location := { filePath := f.path }
    metadata := { language := "python" }
    evidence :=
      [{ type := .config_file
         pattern := f.name
         matchedText := f.name
         filePath := f.path
         line := none
         confidenceContribution := 7/10 }] }

theorem processFile_inert (env : ScanEnv) (T : ℚ) (scanPath : String)
    (st : ScanState) (f : ScanFile) (hf : auxInert f)
    (hnc : crewaiEffective env f = false) :
    processFile env T scanPath st f = st := by
  obtain ⟨hsrc, hdep, henv⟩ := hf
  rw [crewaiEffective, decide_eq_false_iff_not] at hnc
  have hsrc' : ¬((lookupLanguage f.ext).isSome = true) := by simp [hsrc]
  unfold processFile
  by_cases hsize : MAX_FILE_SIZE < f.size
  · rw [if_pos hsize]
  · rw [if_neg hsize]
    simp only
    rw [if_neg hsrc', if_neg hdep, if_neg henv]
    by_cases hcfg : f.name ∈ getAgentConfigFileNames env.registry
    · rw [if_pos hcfg]
      unfold processConfigFile
      rw [if_neg (fun hname => hnc ⟨hsize, hname, hcfg⟩)]
    · rw [if_neg hcfg]

theorem processFile_crewai (env : ScanEnv) (T : ℚ) (scanPath : String)
    (st : ScanState) (f : ScanFile) (hf : auxInert f)
    (hc : crewaiEffective env f = true)
    (hkey : hasKey st.agentList ("crewai:" ++ f.path) = false) :
    processFile env T scanPath st f =
      { st with agentList := st.agentList ++ [crewaiRecord f st.nextId]
                nextId := st.nextId + 1 } := by
  obtain ⟨hsrc, hdep, henv⟩ := hf
  rw [crewaiEffective, decide_eq_true_eq] at hc
  obtain ⟨hsize, hname, hcfg⟩ := hc
  have hsrc' : ¬((lookupLanguage f.ext).isSome = true) := by simp [hsrc]
  have hkey' : ¬(hasKey st.agentList ("crewai:" ++ f.path) = true) := by simp [hkey]
  unfold processFile
  rw [if_neg hsize]
  simp only
  rw [if_neg hsrc', if_neg hdep, if_neg henv, if_pos hcfg]
  unfold processConfigFile
  rw [if_pos hname, if_neg hkey']
  rfl

theorem fold_all_inert (env : ScanEnv) (T : ℚ) (scanPath : String) :
    ∀ (files : List ScanFile),
      (∀ f ∈ files, auxInert f) → files.countP (crewaiEffective env) = 0 →
      ∀ st : ScanState, files.foldl (processFile env T scanPath) st = st := by
  intro files
  induction files with
  | nil => intro _ _ st; rfl
  | cons f rest ih =>
    intro hf hc st
    rw [List.countP_cons] at hc
    have hcf : crewaiEffective env f = false := by
      by_cases h : crewaiEffective env f = true
      · rw [h] at hc; simp at hc
      · exact eq_false_of_ne_true h
    have hrest : rest.countP (crewaiEffective env) = 0 := by
      rw [hcf] at hc; simpa using hc
    rw [List.foldl_cons,
      processFile_inert env T scanPath st f (hf f (List.mem_cons_self _ _)) hcf]
    exact ih (fun g hg => hf g (List.mem_cons_of_mem _ hg)) hrest st

theorem fold_single_crewai (env : ScanEnv) (T : ℚ) (scanPath : String)
    (files : List ScanFile)
    (hf : ∀ f ∈ files, auxInert f)
    (hc : files.countP (crewaiEffective env) = 1) :
    ∀ (st : ScanState), st.agentList = [] →
      ∃ f0 ∈ files, crewaiEffective env f0 = true ∧
        files.foldl (processFile env T scanPath) st =
          { st with agentList := st.agentList ++ [crewaiRecord f0 st.nextId]
                    nextId := st.nextId + 1 } := by
  induction files with
  | nil => intro st _; simp [List.countP_nil] at hc
  | cons f rest ih =>
    intro st hst
    rw [List.countP_cons] at hc
    by_cases hcf : crewaiEffective env f = true
    · have hrest : rest.countP (crewaiEffective env) = 0 := by
        rw [hcf] at hc; simpa using hc
      refine ⟨f, List.mem_cons_self _ _, hcf, ?_⟩
      rw [List.foldl_cons,
        processFile_crewai env T scanPath st f (hf f (List.mem_cons_self _ _)) hcf
          (by rw [hst]; rfl)]
      exact fold_all_inert env T scanPath rest
        (fun g hg => hf g (List.mem_cons_of_mem _ hg)) hrest _
    · have hcf' : crewaiEffective env f = false := eq_false_of_ne_true hcf
      have hrest : rest.countP (crewaiEffective env) = 1 := by
        rw [hcf'] at hc; simpa using hc
      rw [List.foldl_cons,
        processFile_inert env T scanPath st f (hf f (List.mem_cons_self _ _)) hcf']
      rcases ih (fun g hg => hf g (List.mem_cons_of_mem _ hg)) hrest st hst with
        ⟨f0, hf0, hc0, heq⟩
      exact ⟨f0, List.mem_cons_of_mem _ hf0, hc0, heq⟩

/-- The source branch touches only the agent list and the id counter. -/
theorem processSourceDetections_aux_fields (env : ScanEnv) (T : ℚ)
    (scanPath : String) (file : ScanFile) (st : ScanState) :
    (processSourceDetections env T scanPath file st).dependencyEvidence =
      st.dependencyEvidence ∧
    (processSourceDetections env T scanPath file st).envEvidence = st.envEvidence := by
  unfold processSourceDetections
  generalize analyzeContent env.registry file.content
    (joinPath scanPath file.path) (detectLanguage file.ext) = result
  have haux : ∀ (dets : List FileDetection) (st : ScanState),
      (dets.foldl (insertDetection env T file result.language) st).dependencyEvidence =
        st.dependencyEvidence ∧
      (dets.foldl (insertDetection env T file result.language) st).envEvidence =
        st.envEvidence := by
    intro dets
    induction dets with
    | nil => intro st; exact ⟨rfl, rfl⟩
    | cons d rest ih =>
      intro st
      rw [List.foldl_cons]
      rcases ih (insertDetection env T file result.language st d) with ⟨h1, h2⟩
      rw [h1, h2]
      unfold insertDetection
      by_cases hth : T ≤ d.totalConfidence
      · rw [if_pos hth]
        by_cases hkey : hasKey st.agentList (d.framework ++ ":" ++ file.path)
        · rw [if_pos hkey]; exact ⟨rfl, rfl⟩
        · rw [if_neg hkey]; exact ⟨rfl, rfl⟩
      · rw [if_neg hth]; exact ⟨rfl, rfl⟩
  exact haux result.detections st

/-- The config branch touches only the agent list and the id counter. -/
theorem processConfigFile_aux_fields (st : ScanState) (file : ScanFile) :
    (processConfigFile st file).dependencyEvidence = st.dependencyEvidence ∧
    (processConfigFile st file).envEvidence = st.envEvidence := by
  unfold processConfigFile
  by_cases hname : file.name = "crewai.yaml" ∨ file.name = "crewai.yml"
  · rw [if_pos hname]
    by_cases hkey : hasKey st.agentList ("crewai:" ++ file.path)
    · rw [if_pos hkey]; exact ⟨rfl, rfl⟩
    · rw [if_neg hkey]; exact ⟨rfl, rfl⟩
  · rw [if_neg hname]; exact ⟨rfl, rfl⟩

/-- The aux-evidence lists stay empty as long as no file is a dependency
manifest or an env file (source and config files never write them). -/
theorem fold_aux_evidence_empty (env : ScanEnv) (T : ℚ) (scanPath : String) :
    ∀ (files : List ScanFile),
      (∀ f ∈ files, f.name ∉ DEPENDENCY_FILES ∧
        ¬(f.name = ".env" ∨ jsStartsWith ".env." f.name)) →
      ∀ st : ScanState,
      (files.foldl (processFile env T scanPath) st).dependencyEvidence =
        st.dependencyEvidence ∧
      (files.foldl (processFile env T scanPath) st).envEvidence = st.envEvidence := by
  intro files
  induction files with
  | nil => intro _ st; exact ⟨rfl, rfl⟩
  | cons f rest ih =>
    intro hf st
    obtain ⟨hdep, henv⟩ := hf f (List.mem_cons_self _ _)
    have hstep : (processFile env T scanPath st f).dependencyEvidence =
        st.dependencyEvidence ∧
        (processFile env T scanPath st f).envEvidence = st.envEvidence := by
      unfold processFile
      by_cases hsize : MAX_FILE_SIZE < f.size
      · rw [if_pos hsize]; exact ⟨rfl, rfl⟩
      · rw [if_neg hsize]
        simp only
        rw [if_neg hdep, if_neg henv]
        have h1 : (if (lookupLanguage f.ext).isSome
            then processSourceDetections env T scanPath f st else st).dependencyEvidence =
            st.dependencyEvidence ∧
            (if (lookupLanguage f.ext).isSome
              then processSourceDetections env T scanPath f st else st).envEvidence =
            st.envEvidence := by
          by_cases hl : (lookupLanguage f.ext).isSome
          · rw [if_pos hl]
            exact processSourceDetections_aux_fields env T scanPath f st
          · rw [if_neg hl]; exact ⟨rfl, rfl⟩
        by_cases hcfg : f.name ∈ getAgentConfigFileNames env.registry
        · rw [if_pos hcfg]
          rcases processConfigFile_aux_fields
            (if (lookupLanguage f.ext).isSome
              then processSourceDetections env T scanPath f st else st) f with ⟨hc1, hc2⟩
          rw [hc1, hc2, h1.1, h1.2]
          exact ⟨rfl, rfl⟩
        · rw [if_neg hcfg]
          exact h1
    rw [List.foldl_cons]
    rcases ih (fun g hg => hf g (List.mem_cons_of_mem _ hg))
      (processFile env T scanPath st f) with ⟨h1, h2⟩
    rw [h1, h2, hstep.1, hstep.2]
    exact ⟨rfl, rfl⟩

/-- A scan whose (capped) file list is free of source, dependency and env
files and holds exactly one effective crewai config file produces exactly
one agent: the crewai record at confidence 0.7. -/
theorem scanLocal_single_crewai_core (env : ScanEnv) (options : ScanOptions)
    (discoveredFiles : List ScanFile)
    (hf : ∀ f ∈ discoveredFiles.take (options.maxFiles.getD 10000), auxInert f)
    (hc : (discoveredFiles.take (options.maxFiles.getD 10000)).countP
      (crewaiEffective env) = 1) :
    ∃ a, (scanLocal env options discoveredFiles).agents = [a] ∧
      a.framework = "crewai" ∧ a.confidence = 7/10 := by
  unfold scanLocal
  simp only
  obtain ⟨f0, hmem, hc0, heq⟩ := fold_single_crewai env
    (options.confidenceThreshold.getD CONFIDENCE_THRESHOLDS_REPORT)
    (options.path.getD "") (discoveredFiles.take (options.maxFiles.getD 10000)) hf hc
    ⟨[], [], [], 0⟩ rfl
  rw [heq]
  by_cases hrepo : env.isRepo = true
  · unfold enrichWithRisks enrichWithGitBlame
    rw [if_pos hrepo]
    exact ⟨_, rfl, rfl, rfl⟩
  · unfold enrichWithRisks enrichWithGitBlame
    rw [if_neg hrepo]
    exact ⟨_, rfl, rfl, rfl⟩

/-- **C2 (amended).** A recognized config-file name creates an
AgentRecord only when it is one of the framework-specific names
`crewai.yaml`/`crewai.yml`: for every scan whose (capped) tree holds no
source-language, dependency-manifest or env files and exactly one
effective crewai config file, the result contains exactly one
AgentRecord, attributed to crewai at confidence exactly 0.7.  (The
generic registry names such as `agents.yaml` create none — see the
counterexample.) -/
theorem scanLocal_standalone_config_single_record (env : ScanEnv)
    (options : ScanOptions) (discoveredFiles : List ScanFile)
    (hf : ∀ f ∈ discoveredFiles.take (options.maxFiles.getD 10000), auxInert f)
    (hc : (discoveredFiles.take (options.maxFiles.getD 10000)).countP
      (crewaiEffective env) = 1) :
    ∃ a, (scanLocal env options discoveredFiles).agents = [a] ∧
      a.framework = "crewai" ∧ a.confidence = 7/10 :=
  scanLocal_single_crewai_core env options discoveredFiles hf hc

/-- A registry entry carrying crewai's identifier and its config-file and
dependency names (`crewai.ts`); its regex pattern lists are not involved
in the config-file theorems and are left empty here. -/
def sampleCrewaiRegistryEntry : FrameworkPatterns :=
  { framework := "crewai"
    displayName := "CrewAI"
    languages := ["python"]
    imports := []
    instantiations := []
    configFiles := ["crewai.yaml", "crewai.yml"]
    dependencies := ["crewai", "crewai-tools"] }

/-- A scan environment whose registry knows crewai's config files. -/
def crewaiScanEnv : ScanEnv :=
  { emptyScanEnv with registry := [sampleCrewaiRegistryEntry] }

/-- A standalone crewai config file. -/
def crewaiYamlFile : ScanFile :=
  { path := "crewai.yaml", name := "crewai.yaml", ext := ".yaml",
    content := "agents:", size := 20 }

/-- An `.env.local` file assigning a secret-shaped value to
`OPENAI_API_KEY`.  Unlike a bare `.env` entry (which the ignore list of
`SKIP_DIRECTORIES` filters out before the scan loop), `.env.local` passes
the ignore filter and matches the discovery glob `**/.env.*`; Node's
`extname` yields `.local`. -/
def envLocalFile : ScanFile :=
  { path := ".env.local", name := ".env.local", ext := ".local",
    content := "OPENAI_API_KEY=sk-12345", size := 23 }

/-- **C2 (counterexample).** `agents.yaml` is in the registry's
config-file list, yet a tree containing only it (and no source files at
all) yields zero AgentRecords — not exactly one at confidence 0.7 as the
claim states for every name in that list. -/
theorem scanLocal_generic_config_name_no_record :
    "agents.yaml" ∈ getAgentConfigFileNames crewaiScanEnv.registry ∧
    (scanLocal crewaiScanEnv {}
      [{ path := "agents.yaml", name := "agents.yaml", ext := ".yaml",
         content := "agents:", size := 7 }]).agents = [] := by
  constructor
  · decide
  · rfl

/-- Witness for the amended C2 at a concrete tree. -/
theorem scanLocal_standalone_config_single_record_witness :
    ∃ a, (scanLocal crewaiScanEnv {} [crewaiYamlFile]).agents = [a] ∧
      a.framework = "crewai" ∧ a.confidence = 7/10 :=
  scanLocal_standalone_config_single_record crewaiScanEnv {} [crewaiYamlFile]
    (by decide) (by decide)

/-- Splitting a list at a delimiter occurring in neither left part is
unambiguous. -/
theorem append_cons_inj {α : Type} {c : α} :
    ∀ (a a' b b' : List α), c ∉ a → c ∉ a' →
      a ++ c :: b = a' ++ c :: b' → a = a' ∧ b = b' := by
  intro a
  induction a with
  | nil =>
    intro a' b b' _ h2 h
    cases a' with
    | nil =>
      rw [List.nil_append, List.nil_append] at h
      exact ⟨rfl, (List.cons.injEq _ _ _ _ ▸ h).2⟩
    | cons x xs =>
      rw [List.nil_append, List.cons_append] at h
      obtain ⟨hc, _⟩ := List.cons.injEq _ _ _ _ ▸ h
      subst hc
      exact absurd (List.mem_cons_self _ _) h2
  | cons x xs ih =>
    intro a' b b' h1 h2 h
    cases a' with
    | nil =>
      rw [List.cons_append, List.nil_append] at h
      obtain ⟨hc, _⟩ := List.cons.injEq _ _ _ _ ▸ h
      subst hc
      exact absurd (List.mem_cons_self _ _) h1
    | cons y ys =>
      rw [List.cons_append, List.cons_append] at h
      obtain ⟨hxy, ht⟩ := List.cons.injEq _ _ _ _ ▸ h
      obtain ⟨ha, hb⟩ := ih ys b b'
        (fun hc => h1 (List.mem_cons_of_mem _ hc))
        (fun hc => h2 (List.mem_cons_of_mem _ hc)) ht
      exact ⟨by rw [hxy, ha], hb⟩

/-- A `Map` key `` `${framework}:${path}` `` splits unambiguously at its
colon when the framework identifier is colon-free, so it equals a crewai
key only for the framework `crewai` at the same path. -/
theorem key_split_crewai (fw p q : String) (hfw : (':') ∉ fw.data)
    (h : fw ++ ":" ++ p = "crewai:" ++ q) : fw = "crewai" ∧ p = q := by
  have hd := congrArg String.data h
  simp only [String.data_append] at hd
  rw [List.append_assoc] at hd
  have hd' : fw.data ++ (':') :: p.data = "crewai".data ++ (':') :: q.data := hd
  obtain ⟨h1, h2⟩ := append_cons_inj fw.data "crewai".data p.data q.data hfw
    (by decide) hd'
  exact ⟨String.ext h1, String.ext h2⟩

/-- `deduplicatePatterns` only rearranges framework identifiers: every
output entry carries the identifier of some input entry. -/
theorem deduplicatePatterns_framework (P : String → Prop) :
    ∀ (patterns : List FrameworkPatterns),
      (∀ fp ∈ patterns, P fp.framework) →
      ∀ q ∈ deduplicatePatterns patterns, P q.framework := by
  have haux : ∀ (patterns acc : List FrameworkPatterns),
      (∀ fp ∈ patterns, P fp.framework) → (∀ q ∈ acc, P q.framework) →
      ∀ q ∈ patterns.foldl upsertMerge acc, P q.framework := by
    intro patterns
    induction patterns with
    | nil => intro acc _ hacc q hq; exact hacc q hq
    | cons p rest ih =>
      intro acc hall hacc
      rw [List.foldl_cons]
      apply ih _ (fun fp hfp => hall fp (List.mem_cons_of_mem _ hfp))
      intro q hq
      unfold upsertMerge at hq
      by_cases hany : acc.any (fun r => r.framework == p.framework) = true
      · rw [if_pos hany] at hq
        rcases List.mem_map.mp hq with ⟨r, hr, rfl⟩
        by_cases heq : r.framework = p.framework
        · rw [if_pos heq]
          unfold mergeFrameworkPatterns
          exact hacc r hr
        · rw [if_neg heq]
          exact hacc r hr
      · rw [if_neg hany] at hq
        rcases List.mem_append.mp hq with h | h
        · exact hacc q h
        · rw [List.mem_singleton] at h
          rw [h]
          exact hall p (List.mem_cons_self _ _)
  intro patterns hall
  exact haux patterns [] hall (fun q hq => absurd hq (List.not_mem_nil q))

/-- The applicable pattern sets for a language all carry registry
framework identifiers. -/
theorem applicablePatterns_framework (P : String → Prop)
    (registry : List FrameworkPatterns) (language : String)
    (h : ∀ fp ∈ registry, P fp.framework) :
    ∀ q ∈ applicablePatterns registry language, P q.framework := by
  have hg : ∀ (l : String), ∀ fp ∈ getPatternsForLanguage registry l, P fp.framework :=
    fun l fp hfp => h fp (List.mem_filter.mp hfp).1
  intro q hq
  unfold applicablePatterns at hq
  rcases ho : (if language = "typescript" then some "javascript"
      else if language = "javascript" then some "typescript"
      else none : Option String) with _ | l
  · rw [ho] at hq
    exact deduplicatePatterns_framework P _ (hg language) q hq
  · rw [ho] at hq
    exact deduplicatePatterns_framework P _
      (fun fp hfp => (List.mem_append.mp hfp).elim (hg language fp) (hg l fp)) q hq

/-- Detections accumulated by `analyzeContent`'s loop carry the framework
identifier of some tried pattern set. -/
theorem detectionsFold_framework (content filePath : String) (P : String → Prop) :
    ∀ (fps : List FrameworkPatterns) (acc : List FileDetection),
      (∀ fp ∈ fps, P fp.framework) → (∀ d ∈ acc, P d.framework) →
      ∀ d ∈ fps.foldl (detectionStep content filePath) acc, P d.framework := by
  intro fps
  induction fps with
  | nil => intro acc _ hacc; exact hacc
  | cons fp rest ih =>
    intro acc hall hacc
    rw [List.foldl_cons]
    apply ih _ (fun g hg => hall g (List.mem_cons_of_mem _ hg))
    intro d hd
    unfold detectionStep at hd
    by_cases hlen : 0 < (matchPatterns content filePath fp).length
    · rw [if_pos hlen] at hd
      rcases List.mem_append.mp hd with h | h
      · exact hacc d h
      · rw [List.mem_singleton] at h
        subst h
        exact hall fp (List.mem_cons_self _ _)
    · rw [if_neg hlen] at hd
      exact hacc d hd

/-- Frameworks of `analyzeContent` detections come from the registry. -/
theorem analyzeContent_framework (registry : List FrameworkPatterns)
    (content filePath language : String) (P : String → Prop)
    (h : ∀ fp ∈ registry, P fp.framework) :
    ∀ d ∈ (analyzeContent registry content filePath language).detections,
      P d.framework := by
  intro d hd
  unfold analyzeContent at hd
  by_cases hu : language = "unknown"
  · rw [if_pos hu] at hd
    exact absurd hd (List.not_mem_nil d)
  · rw [if_neg hu] at hd
    exact detectionsFold_framework content filePath P _ []
      (applicablePatterns_framework P registry language h)
      (fun e he => absurd he (List.not_mem_nil e)) d hd

/-- Records added by the detection-insert fold carry the file's path and a
detection's framework. -/
theorem insertDetection_fold_records (env : ScanEnv) (T : ℚ) (file : ScanFile)
    (language : String) :
    ∀ (dets : List FileDetection) (st : ScanState),
      ∀ a ∈ (dets.foldl (insertDetection env T file language) st).agentList,
        a ∈ st.agentList ∨
          (a.location.filePath = file.path ∧
            ∃ d ∈ dets, a.framework = d.framework) := by
  intro dets
  induction dets with
  | nil => intro st a ha; exact Or.inl ha
  | cons d rest ih =>
    intro st a ha
    rw [List.foldl_cons] at ha
    rcases ih (insertDetection env T file language st d) a ha with h | ⟨hp, d', hd', hf⟩
    · unfold insertDetection at h
      by_cases hth : T ≤ d.totalConfidence
      · rw [if_pos hth] at h
        by_cases hkey : hasKey st.agentList (d.framework ++ ":" ++ file.path) = true
        · rw [if_pos hkey] at h
          exact Or.inl h
        · rw [if_neg hkey] at h
          rcases List.mem_append.mp h with h' | h'
          · exact Or.inl h'
          · rw [List.mem_singleton] at h'
            subst h'
            exact Or.inr ⟨rfl, d, List.mem_cons_self _ _, rfl⟩
      · rw [if_neg hth] at h
        exact Or.inl h
    · exact Or.inr ⟨hp, d', List.mem_cons_of_mem _ hd', hf⟩

/-- Records added by the source branch carry the file's path and a
registry framework identifier. -/
theorem processSourceDetections_records (env : ScanEnv) (T : ℚ) (scanPath : String)
    (file : ScanFile) (st : ScanState) :
    ∀ a ∈ (processSourceDetections env T scanPath file st).agentList,
      a ∈ st.agentList ∨
        (a.location.filePath = file.path ∧
          ∃ fp ∈ env.registry, a.framework = fp.framework) := by
  intro a ha
  unfold processSourceDetections at ha
  rcases insertDetection_fold_records env T file _ _ st a ha with h | ⟨hp, d, hd, hf⟩
  · exact Or.inl h
  · refine Or.inr ⟨hp, ?_⟩
    rcases analyzeContent_framework env.registry file.content
      (joinPath scanPath file.path) (detectLanguage file.ext)
      (fun fw => ∃ fp ∈ env.registry, fw = fp.framework)
      (fun fp hfp => ⟨fp, hfp, rfl⟩) d hd with ⟨fp, hfp, hfw⟩
    exact ⟨fp, hfp, hf.trans hfw⟩

/-- Records added by the config branch are crewai records at the file's
path. -/
theorem processConfigFile_records (st : ScanState) (file : ScanFile) :
    ∀ a ∈ (processConfigFile st file).agentList,
      a ∈ st.agentList ∨
        (a.location.filePath = file.path ∧ a.framework = "crewai" ∧
          a.confidence = 7/10) := by
  intro a ha
  unfold processConfigFile at ha
  by_cases hname : file.name = "crewai.yaml" ∨ file.name = "crewai.yml"
  · rw [if_pos hname] at ha
    by_cases hkey : hasKey st.agentList ("crewai:" ++ file.path) = true
    · rw [if_pos hkey] at ha
      exact Or.inl ha
    · rw [if_neg hkey] at ha
      rcases List.mem_append.mp ha with h | h
      · exact Or.inl h
      · rw [List.mem_singleton] at h
        subst h
        exact Or.inr ⟨rfl, rfl, rfl⟩
  · rw [if_neg hname] at ha
    exact Or.inl ha

/-- One loop iteration only adds records, each carrying the processed
file's path and either the literal `crewai` (at confidence 0.7) or a
registry framework identifier. -/
theorem processFile_records (env : ScanEnv) (T : ℚ) (scanPath : String)
    (st : ScanState) (f : ScanFile) :
    ∀ a ∈ (processFile env T scanPath st f).agentList,
      a ∈ st.agentList ∨
        (a.location.filePath = f.path ∧
          ((a.framework = "crewai" ∧ a.confidence = 7/10) ∨
            ∃ fp ∈ env.registry, a.framework = fp.framework)) := by
  intro a ha
  unfold processFile at ha
  by_cases hsize : MAX_FILE_SIZE < f.size
  · rw [if_pos hsize] at ha
    exact Or.inl ha
  · rw [if_neg hsize] at ha
    simp only at ha
    have hfin : ∀ b, b ∈ (if (lookupLanguage f.ext).isSome = true
          then processSourceDetections env T scanPath f st else st).agentList →
        b ∈ st.agentList ∨
          (b.location.filePath = f.path ∧
            ((b.framework = "crewai" ∧ b.confidence = 7/10) ∨
              ∃ fp ∈ env.registry, b.framework = fp.framework)) := by
      intro b hb
      by_cases hl : (lookupLanguage f.ext).isSome = true
      · rw [if_pos hl] at hb
        rcases processSourceDetections_records env T scanPath f st b hb with h | ⟨hp, hfp⟩
        · exact Or.inl h
        · exact Or.inr ⟨hp, Or.inr hfp⟩
      · rw [if_neg hl] at hb
        exact Or.inl hb
    by_cases hcfg : f.name ∈ getAgentConfigFileNames env.registry
    · by_cases hdep : f.name ∈ DEPENDENCY_FILES <;>
        by_cases henvn : f.name = ".env" ∨ jsStartsWith ".env." f.name = true <;>
          simp only [hdep, henvn, hcfg, if_true, if_false] at ha <;>
          exact (processConfigFile_records _ f a ha).elim (fun h => hfin a h)
            (fun hnew => Or.inr ⟨hnew.1, Or.inl ⟨hnew.2.1, hnew.2.2⟩⟩)
    · by_cases hdep : f.name ∈ DEPENDENCY_FILES <;>
        by_cases henvn : f.name = ".env" ∨ jsStartsWith ".env." f.name = true <;>
          simp only [hdep, henvn, hcfg, if_true, if_false] at ha <;>
          exact hfin a ha

/-- One detection-insert step never drops a record. -/
theorem insertDetection_mem_mono (env : ScanEnv) (T : ℚ) (file : ScanFile)
    (language : String) (st : ScanState) (d : FileDetection) (a : AgentRecord)
    (ha : a ∈ st.agentList) :
    a ∈ (insertDetection env T file language st d).agentList := by
  unfold insertDetection
  by_cases hth : T ≤ d.totalConfidence
  · rw [if_pos hth]
    by_cases hkey : hasKey st.agentList (d.framework ++ ":" ++ file.path) = true
    · rw [if_pos hkey]
      exact ha
    · rw [if_neg hkey]
      exact List.mem_append_left _ ha
  · rw [if_neg hth]
    exact ha

/-- The detection-insert fold never drops a record. -/
theorem insertDetection_fold_mem_mono (env : ScanEnv) (T : ℚ) (file : ScanFile)
    (language : String) :
    ∀ (dets : List FileDetection) (st : ScanState) (a : AgentRecord),
      a ∈ st.agentList →
      a ∈ (dets.foldl (insertDetection env T file language) st).agentList := by
  intro dets
  induction dets with
  | nil => intro st a ha; exact ha
  | cons d rest ih =>
    intro st a ha
    rw [List.foldl_cons]
    exact ih _ a (insertDetection_mem_mono env T file language st d a ha)

/-- The config branch never drops a record. -/
theorem processConfigFile_mem_mono (st : ScanState) (file : ScanFile) (a : AgentRecord)
    (ha : a ∈ st.agentList) : a ∈ (processConfigFile st file).agentList := by
  unfold processConfigFile
  by_cases hname : file.name = "crewai.yaml" ∨ file.name = "crewai.yml"
  · rw [if_pos hname]
    by_cases hkey : hasKey st.agentList ("crewai:" ++ file.path) = true
    · rw [if_pos hkey]
      exact ha
    · rw [if_neg hkey]
      exact List.mem_append_left _ ha
  · rw [if_neg hname]
    exact ha

/-- One loop iteration never drops a record. -/
theorem processFile_mem_mono (env : ScanEnv) (T : ℚ) (scanPath : String)
    (st : ScanState) (f : ScanFile) (a : AgentRecord) (ha : a ∈ st.agentList) :
    a ∈ (processFile env T scanPath st f).agentList := by
  unfold processFile
  by_cases hsize : MAX_FILE_SIZE < f.size
  · rw [if_pos hsize]
    exact ha
  · rw [if_neg hsize]
    simp only
    have h1 : a ∈ (if (lookupLanguage f.ext).isSome = true
        then processSourceDetections env T scanPath f st else st).agentList := by
      by_cases hl : (lookupLanguage f.ext).isSome = true
      · rw [if_pos hl]
        unfold processSourceDetections
        exact insertDetection_fold_mem_mono env T f _ _ st a ha
      · rw [if_neg hl]
        exact ha
    by_cases hdep : f.name ∈ DEPENDENCY_FILES <;>
      by_cases henvn : f.name = ".env" ∨ jsStartsWith ".env." f.name = true <;>
        by_cases hcfg : f.name ∈ getAgentConfigFileNames env.registry <;>
          simp only [hdep, henvn, hcfg, if_true, if_false] <;>
          first
            | exact processConfigFile_mem_mono _ f a h1
            | exact h1

/-- The scan loop never drops a record. -/
theorem foldl_processFile_mem_mono (env : ScanEnv) (T : ℚ) (scanPath : String) :
    ∀ (files : List ScanFile) (st : ScanState) (a : AgentRecord),
      a ∈ st.agentList →
      a ∈ (files.foldl (processFile env T scanPath) st).agentList := by
  intro files
  induction files with
  | nil => intro st a ha; exact ha
  | cons f rest ih =>
    intro st a ha
    rw [List.foldl_cons]
    exact ih _ a (processFile_mem_mono env T scanPath st f a ha)

/-- Once the file list holds an effective crewai config file, the scan
loop ends with a crewai record at confidence 0.7 in its agent map: no
earlier file can occupy that `Map` key from the source branch (paths are
distinct and framework identifiers colon-free), and a config-branch
occupant is itself such a record. -/
theorem fold_crewai_good (env : ScanEnv) (T : ℚ) (scanPath : String)
    (hfw : ∀ fp ∈ env.registry, (':') ∉ fp.framework.data) :
    ∀ (files : List ScanFile),
      (∀ f ∈ files, (f.name = "crewai.yaml" ∨ f.name = "crewai.yml") →
        (lookupLanguage f.ext).isSome = false) →
      (files.map ScanFile.path).Nodup →
      (∃ f ∈ files, crewaiEffective env f = true) →
      ∀ st : ScanState,
        (∀ g ∈ files, crewaiEffective env g = true →
          ∀ a ∈ st.agentList, agentKey a ≠ "crewai:" ++ g.path) →
        ∃ a ∈ (files.foldl (processFile env T scanPath) st).agentList,
          a.framework = "crewai" ∧ a.confidence = 7/10 := by
  intro files
  induction files with
  | nil =>
    intro _ _ hcfg st _
    rcases hcfg with ⟨f, hf, _⟩
    exact absurd hf (List.not_mem_nil f)
  | cons f rest ih =>
    intro hext hpaths hcfg st hdisj
    rw [List.foldl_cons]
    by_cases hcf : crewaiEffective env f = true
    · have hnames : f.name = "crewai.yaml" ∨ f.name = "crewai.yml" := by
        rw [crewaiEffective, decide_eq_true_eq] at hcf
        exact hcf.2.1
      have hinert : auxInert f := by
        refine ⟨hext f (List.mem_cons_self _ _) hnames, ?_, ?_⟩
        · rcases hnames with h | h <;> rw [h] <;> decide
        · rcases hnames with h | h <;> rw [h] <;> decide
      have hkey : hasKey st.agentList ("crewai:" ++ f.path) = false := by
        refine eq_false_of_ne_true ?_
        rw [hasKey_true_iff]
        intro hk
        rcases List.mem_map.mp hk with ⟨a, ha, hka⟩
        exact hdisj f (List.mem_cons_self _ _) hcf a ha hka
      rw [processFile_crewai env T scanPath st f hinert hcf hkey]
      refine ⟨crewaiRecord f st.nextId, ?_, rfl, rfl⟩
      apply foldl_processFile_mem_mono
      exact List.mem_append_right _ (List.mem_singleton_self _)
    · have hcfg' : ∃ g ∈ rest, crewaiEffective env g = true := by
        rcases hcfg with ⟨g, hg, hge⟩
        rcases List.mem_cons.mp hg with rfl | hg'
        · exact absurd hge hcf
        · exact ⟨g, hg', hge⟩
      refine ih (fun g hg => hext g (List.mem_cons_of_mem _ hg))
        (List.nodup_cons.mp hpaths).2 hcfg' (processFile env T scanPath st f) ?_
      intro g hg hge a ha hkeyeq
      rcases processFile_records env T scanPath st f a ha with hold | ⟨hp', hprov⟩
      · exact hdisj g (List.mem_cons_of_mem _ hg) hge a hold hkeyeq
      · have hcolon : (':') ∉ a.framework.data := by
          rcases hprov with ⟨hfwc, _⟩ | ⟨fp, hfp, hfwe⟩
          · rw [hfwc]
            decide
          · rw [hfwe]
            exact hfw fp hfp
        obtain ⟨_, hpq⟩ := key_split_crewai a.framework a.location.filePath g.path
          hcolon hkeyeq
        have hpp : f.path = g.path := by rw [← hp', hpq]
        apply (List.nodup_cons.mp hpaths).1
        rw [hpp]
        exact List.mem_map_of_mem ScanFile.path hg

/-- The dependency enrichment keeps every member's framework (only its
confidence and evidence may change). -/
theorem enrichWithDependencies_mem_framework :
    ∀ (deps : List DetectionEvidence) (agents : List AgentRecord) (a : AgentRecord),
      a ∈ agents →
      ∃ b ∈ enrichWithDependencies agents deps, b.framework = a.framework := by
  intro deps
  induction deps with
  | nil => intro agents a ha; exact ⟨a, ha, rfl⟩
  | cons dep rest ih =>
    intro agents a ha
    unfold enrichWithDependencies
    rw [List.foldl_cons]
    rw [show (List.foldl _ _ rest : List AgentRecord) =
      enrichWithDependencies _ rest from rfl]
    cases hfind : DEPENDENCY_MAPPINGS.find? (fun d => d.name == dep.pattern) with
    | none =>
      simp only [hfind]
      exact ih agents a ha
    | some mapping =>
      simp only [hfind]
      obtain ⟨b, hb, hfwb⟩ := ih _ _ (List.mem_map_of_mem _ ha)
      refine ⟨b, hb, ?_⟩
      rw [hfwb]
      by_cases h1 : a.framework = mapping.framework
      · by_cases h2 : ∃ x ∈ a.evidence,
            x.type = EvidenceType.dependency ∧ x.pattern = dep.pattern
        · simp [h1, h2]
        · simp [h1, h2]
      · simp [h1]

/-- The env-var enrichment keeps every member's framework. -/
theorem enrichWithEnvVars_mem_framework :
    ∀ (envs : List DetectionEvidence) (agents : List AgentRecord) (a : AgentRecord),
      a ∈ agents →
      ∃ b ∈ enrichWithEnvVars agents envs, b.framework = a.framework := by
  intro envs
  induction envs with
  | nil => intro agents a ha; exact ⟨a, ha, rfl⟩
  | cons ev rest ih =>
    intro agents a ha
    unfold enrichWithEnvVars
    rw [List.foldl_cons]
    rw [show (List.foldl _ _ rest : List AgentRecord) =
      enrichWithEnvVars _ rest from rfl]
    obtain ⟨b, hb, hfwb⟩ := ih _ _ (List.mem_map_of_mem _ ha)
    refine ⟨b, hb, ?_⟩
    rw [hfwb]
    by_cases h2 : ∃ x ∈ a.evidence, x.type = EvidenceType.env_var ∧ x.pattern = ev.pattern
    · simp [h2]
    · simp [h2]

/-- The sorting, ownership and risk stages keep each member's framework
and confidence. -/
theorem finalize_mem (env : ScanEnv) (l : List AgentRecord) (a : AgentRecord)
    (ha : a ∈ l) :
    ∃ b ∈ (enrichWithRisks env.riskRules
        (enrichWithGitBlame env (sortByConfidenceDesc l))).1,
      b.framework = a.framework ∧ b.confidence = a.confidence := by
  have hsorted : a ∈ sortByConfidenceDesc l :=
    (sortByConfidenceDesc_perm l).mem_iff.mpr ha
  have hblame : ∃ c ∈ enrichWithGitBlame env (sortByConfidenceDesc l),
      c.framework = a.framework ∧ c.confidence = a.confidence := by
    unfold enrichWithGitBlame
    by_cases hrepo : env.isRepo = true
    · rw [if_pos hrepo]
      exact ⟨_, List.mem_map_of_mem _ hsorted, rfl, rfl⟩
    · rw [if_neg hrepo]
      exact ⟨a, hsorted, rfl, rfl⟩
  obtain ⟨c, hc, hcfw, hccf⟩ := hblame
  refine ⟨{ c with risks := some (evaluateAgentRisks env.riskRules c) }, ?_, ?_, ?_⟩
  · have hfst : (enrichWithRisks env.riskRules
        (enrichWithGitBlame env (sortByConfidenceDesc l))).1 =
        (enrichWithGitBlame env (sortByConfidenceDesc l)).map
          (fun x => { x with risks := some (evaluateAgentRisks env.riskRules x) }) := rfl
    rw [hfst]
    exact List.mem_map_of_mem _ hc
  · exact hcfw
  · exact hccf

/-- **C10 (amended).** The caller's confidence threshold filters only
source-pattern detections: for every threshold `t ∈ [0, 1]` — including
`t > 0.7` — a scan of a tree containing a `crewai.yaml` or `crewai.yml`
config file still yields an AgentRecord for crewai, because
config-file-created records are inserted without any threshold
comparison; and its confidence in the final result is exactly 0.7
provided the tree holds no dependency-manifest or env files, whose
auxiliary evidence would otherwise boost it above 0.7.  Stated for trees
as real discovery produces them: file paths are distinct, crewai config
files carry their non-source `.yaml`/`.yml` extension, and the registry's
framework identifiers are colon-free (as all shipped identifiers are). -/
theorem scanLocal_config_record_bypasses_threshold (env : ScanEnv)
    (options : ScanOptions) (discoveredFiles : List ScanFile) (t : ℚ)
    (_ht0 : 0 ≤ t) (_ht1 : t ≤ 1)
    (hfw : ∀ fp ∈ env.registry, (':') ∉ fp.framework.data)
    (hext : ∀ f ∈ discoveredFiles.take (options.maxFiles.getD 10000),
      (f.name = "crewai.yaml" ∨ f.name = "crewai.yml") →
      (lookupLanguage f.ext).isSome = false)
    (hpaths : ((discoveredFiles.take (options.maxFiles.getD 10000)).map
      ScanFile.path).Nodup)
    (hcfg : ∃ f ∈ discoveredFiles.take (options.maxFiles.getD 10000),
      crewaiEffective env f = true) :
    (∃ a ∈ (scanLocal env { options with confidenceThreshold := some t }
        discoveredFiles).agents, a.framework = "crewai") ∧
    ((∀ f ∈ discoveredFiles.take (options.maxFiles.getD 10000),
        f.name ∉ DEPENDENCY_FILES ∧
          ¬(f.name = ".env" ∨ jsStartsWith ".env." f.name)) →
      ∃ a ∈ (scanLocal env { options with confidenceThreshold := some t }
        discoveredFiles).agents, a.framework = "crewai" ∧ a.confidence = 7/10) := by
  obtain ⟨a0, ha0, hfw0, hcf0⟩ := fold_crewai_good env t (options.path.getD "") hfw
    (discoveredFiles.take (options.maxFiles.getD 10000)) hext hpaths hcfg
    ⟨[], [], [], 0⟩ (fun g _ _ a ha => absurd ha (List.not_mem_nil a))
  constructor
  · obtain ⟨a1, ha1, hfw1⟩ := enrichWithDependencies_mem_framework _ _ a0 ha0
    obtain ⟨a2, ha2, hfw2⟩ := enrichWithEnvVars_mem_framework _ _ a1 ha1
    obtain ⟨b, hb, hbfw, _⟩ := finalize_mem env _ a2 ha2
    exact ⟨b, hb, by rw [hbfw, hfw2, hfw1, hfw0]⟩
  · intro hinert
    obtain ⟨hdep0, henv0⟩ := fold_aux_evidence_empty env t (options.path.getD "")
      (discoveredFiles.take (options.maxFiles.getD 10000)) hinert ⟨[], [], [], 0⟩
    have hmem0 : a0 ∈ enrichWithEnvVars
        (enrichWithDependencies
          ((discoveredFiles.take (options.maxFiles.getD 10000)).foldl
            (processFile env t (options.path.getD "")) ⟨[], [], [], 0⟩).agentList
          ((discoveredFiles.take (options.maxFiles.getD 10000)).foldl
            (processFile env t (options.path.getD "")) ⟨[], [], [], 0⟩).dependencyEvidence)
        ((discoveredFiles.take (options.maxFiles.getD 10000)).foldl
          (processFile env t (options.path.getD "")) ⟨[], [], [], 0⟩).envEvidence := by
      rw [hdep0, henv0]
      exact ha0
    obtain ⟨b, hb, hbfw, hbcf⟩ := finalize_mem env _ a0 hmem0
    exact ⟨b, hb, by rw [hbfw, hfw0], by rw [hbcf, hcf0]⟩

/-- A Python source file next to the crewai config (its source branch
runs, the config branch's record is unaffected). -/
def pyAgentFile : ScanFile :=
  { path := "main.py", name := "main.py", ext := ".py",
    content := "import os", size := 9 }

/-- Witness for the amended C10 at the threshold 1 (> 0.7), on a tree
holding a Python source file next to the crewai config. -/
theorem scanLocal_config_record_bypasses_threshold_witness :
    (∃ a ∈ (scanLocal crewaiScanEnv
        { ({} : ScanOptions) with confidenceThreshold := some 1 }
        [pyAgentFile, crewaiYamlFile]).agents, a.framework = "crewai") ∧
    ((∀ f ∈ ([pyAgentFile, crewaiYamlFile] : List ScanFile).take
          (({} : ScanOptions).maxFiles.getD 10000),
        f.name ∉ DEPENDENCY_FILES ∧
          ¬(f.name = ".env" ∨ jsStartsWith ".env." f.name)) →
      ∃ a ∈ (scanLocal crewaiScanEnv
        { ({} : ScanOptions) with confidenceThreshold := some 1 }
        [pyAgentFile, crewaiYamlFile]).agents,
        a.framework = "crewai" ∧ a.confidence = 7/10) :=
  scanLocal_config_record_bypasses_threshold crewaiScanEnv {}
    [pyAgentFile, crewaiYamlFile] 1 zero_le_one (le_refl 1)
    (by decide) (by decide) (by decide) (by decide)

/-- **C10 (counterexample).** At threshold 0.8 a tree holding
`crewai.yaml` together with an `.env.local` file (a name that passes the
real ignore filter) still yields the crewai record, but its final
confidence is 0.75 — the environment-variable boost moves it off the
claimed fixed 0.7. -/
theorem scanLocal_config_confidence_boosted :
    ((scanLocal crewaiScanEnv { confidenceThreshold := some (4/5) }
      [crewaiYamlFile, envLocalFile]).agents.map (fun a => a.framework)) = ["crewai"] ∧
    ((scanLocal crewaiScanEnv { confidenceThreshold := some (4/5) }
      [crewaiYamlFile, envLocalFile]).agents.map (fun a => a.confidence)) =
      [min 1 (7/10 + 1/20)] ∧
    min 1 (7/10 + 1/20) ≠ (7/10 : ℚ) := by
  refine ⟨rfl, rfl, ?_⟩
  rw [min_def]
  norm_num

end AgentGov
